import Mathlib

/-!
Verification of the `network` repository (`gpw::foundation`):
`node.hpp`, `tree.hpp`, `digraph.hpp`.

The C++ code links nodes through raw pointers.  We model a pointer by an
opaque identifier of type `ι`.  Inside a `digraph` or a `tree` the label of a
node is unique (enforced by `create_node` / `append_node`), and every
adjacency pointer targets a node of the same container, so there the label
itself serves as the identifier (`ι := String`).

The C++ traversals recurse without any depth bound, so each recursive
traversal is embedded with an explicit fuel parameter; exhausted fuel
models a non-terminating run.  Code paths that are undefined behaviour in
C++ (dereferencing a missing element) are modelled as `Option`/failure
results.
-/

namespace Network

/-! ## node.hpp : `node<T>` -/

/-- C++ `node<T>`: a label, a payload and an ordered adjacency list of raw
pointers (modelled as identifiers of type `ι`). -/
structure node (ι : Type) (α : Type) where
  label : String
  data : α
  edges : List ι
deriving DecidableEq

variable {ι : Type} [DecidableEq ι] {α : Type}

/-- C++ `node::is_connected`: membership test of a pointer in `_edges`. -/
def node.is_connected (n : node ι α) (ch : ι) : Bool :=
  decide (ch ∈ n.edges)

/-- C++ `node::connect`: append `ch` to `_edges` unless already present. -/
def node.connect (n : node ι α) (ch : ι) : node ι α :=
  if n.is_connected ch then n else { n with edges := n.edges ++ [ch] }

/-- C++ `node::disconnect` (by pointer or by label): remove every matching
adjacency entry. -/
def node.disconnect (n : node ι α) (ch : ι) : node ι α :=
  { n with edges := n.edges.filter (fun e => e ≠ ch) }

/-- C++ `node::count_connections`: size of `_edges`. -/
def node.count_connections (n : node ι α) : Nat :=
  n.edges.length

/-! ## Helper: update the first matching element of a list.

C++ looks a node up with `find_if` and then mutates it through the returned
iterator; `list_update_first` is that pattern on immutable lists. -/

def list_update_first (p : β → Bool) (f : β → β) : List β → List β
  | [] => []
  | x :: xs => if p x then f x :: xs else x :: list_update_first p f xs

theorem list_update_first_map_eq (p : β → Bool) (f : β → β) (g : β → γ)
    (hp : ∀ b, p b = true → g (f b) = g b) :
    ∀ l : List β, (list_update_first p f l).map g = l.map g := by
  intro l
  induction l with
  | nil => rfl
  | cons x xs ih =>
    by_cases hx : p x = true
    · simp [list_update_first, hx, hp x hx]
    · simp at hx
      simp [list_update_first, hx, ih]

theorem mem_list_update_first (p : β → Bool) (f : β → β) (l : List β) :
    ∀ b ∈ list_update_first p f l, b ∈ l ∨ ∃ a ∈ l, p a = true ∧ b = f a := by
  induction l with
  | nil => simp [list_update_first]
  | cons x xs ih =>
    intro b hb
    by_cases hx : p x = true
    · simp [list_update_first, hx] at hb
      rcases hb with hb | hb
      · exact Or.inr ⟨x, by simp, hx, hb⟩
      · exact Or.inl (by simp [hb])
    · simp at hx
      simp [list_update_first, hx] at hb
      rcases hb with hb | hb
      · exact Or.inl (by simp [hb])
      · rcases ih b hb with h | ⟨a, ha, hpa, hba⟩
        · exact Or.inl (by simp [h])
        · exact Or.inr ⟨a, by simp [ha], hpa, hba⟩

/-! ## digraph.hpp : `digraph<T>` (container part)

`create_node` keeps labels unique, so adjacency pointers are modelled by the
target's label. -/

/-- C++ `digraph<T>`: the owned `std::list<node<T>>`. -/
structure digraph (α : Type) where
  nodes : List (node String α)
deriving DecidableEq

/-- The labels of the owned vertices, in insertion order. -/
def digraph.labels (g : digraph α) : List String :=
  g.nodes.map (·.label)

/-- C++ `digraph::node_with_label`: first node carrying the label. -/
def digraph.node_with_label (g : digraph α) (l : String) : Option (node String α) :=
  g.nodes.find? (fun n => n.label = l)

/-- C++ `digraph::create_node`: no-op if the label exists, else append a new
node at the back. -/
def digraph.create_node (g : digraph α) (l : String) (d : α) : digraph α :=
  if (g.node_with_label l).isSome then g
  else ⟨g.nodes ++ [⟨l, d, []⟩]⟩

/-- C++ `digraph::remove_node`: first disconnect the label from every node,
then drop every node carrying the label. -/
def digraph.remove_node (g : digraph α) (l : String) : digraph α :=
  ⟨(g.nodes.map (fun n => n.disconnect l)).filter (fun n => n.label ≠ l)⟩

/-- C++ `digraph::connect_node`: look up both labels; no-op if either is
missing, else `head->connect(*tail)`. -/
def digraph.connect_node (g : digraph α) (hl tl : String) : digraph α :=
  match g.node_with_label hl, g.node_with_label tl with
  | some _, some tail =>
      ⟨list_update_first (fun n => n.label == hl) (fun n => n.connect tail.label) g.nodes⟩
  | _, _ => g

/-- C++ `digraph::is_connected`: false if either label is missing, else a
membership test on the head's adjacency. -/
def digraph.is_connected (g : digraph α) (hl tl : String) : Bool :=
  match g.node_with_label hl, g.node_with_label tl with
  | some head, some tail => head.is_connected tail.label
  | _, _ => false

/-- C++ `digraph::size`. -/
def digraph.size (g : digraph α) : Nat :=
  g.nodes.length

/-- C++ `digraph::count_connections`: `std::accumulate` of the per-node edge
counts. -/
def digraph.count_connections (g : digraph α) : Nat :=
  g.nodes.foldl (fun acc n => n.count_connections + acc) 0

/-- The documented container invariant: labels are unique and every adjacency
reference points to a vertex still present. -/
def digraph.wf (g : digraph α) : Prop :=
  g.labels.Nodup ∧ ∀ n ∈ g.nodes, ∀ e ∈ n.edges, e ∈ g.labels

/-! ## tree.hpp : `tree<T>`

`append_node` keeps labels unique, so here as well a pointer is modelled by
the target's label: a tree is its owned `std::list<node<T>>`, the root being
the front node. -/

/-- C++ `tree<T>::search_method`. -/
inductive search_method
  | depth
  | breath
deriving DecidableEq

/-- C++ `tree<T>`: the owned `std::list<node<T>>`; `root()` is the front. -/
structure tree (α : Type) where
  nodes : List (node String α)
deriving DecidableEq

/-- C++ `tree` constructor: one root node. -/
def tree.init (l : String) (d : α) : tree α :=
  ⟨[⟨l, d, []⟩]⟩

/-- C++ `tree::size`. -/
def tree.size (t : tree α) : Nat :=
  t.nodes.length

/-- C++ `tree::root().label()`; the constructor guarantees a front node. -/
def tree.root_label (t : tree α) : String :=
  (t.nodes.head?.map (·.label)).getD ""

/-- C++ `tree::_find_node`: first node carrying the label. -/
def tree.find_node (t : tree α) (l : String) : Option (node String α) :=
  t.nodes.find? (fun n => n.label = l)

/-- C++ `tree::contains_node`. -/
def tree.contains_node (t : tree α) (l : String) : Bool :=
  (t.find_node l).isSome

/-- The adjacency labels of the node labelled `l` (empty if absent; every
call site passes a label of a traversed node, which is present). -/
def tree.children_of (t : tree α) (l : String) : List String :=
  ((t.find_node l).map (·.edges)).getD []

/-- C++ `tree::append_node`: no-op if `l` already exists or `parent_label` is
missing; otherwise create the node at the back and `parent->connect` it. -/
def tree.append_node (t : tree α) (parent_label l : String) (d : α) : tree α :=
  if (t.find_node l).isSome then t
  else
    match t.find_node parent_label with
    | none => t
    | some _ =>
        ⟨(list_update_first (fun n => n.label == parent_label)
            (fun n => n.connect l) t.nodes) ++ [⟨l, d, []⟩]⟩

/-- Result of the boolean/stack depth-first helper
(`tree::_depth_first_search(root, dst, stack)`): `found` carries the stack
contents at the moment of the match, `fuel_out` models a run deeper than the
supplied fuel (never reached on trees built by the public API). -/
inductive dfs_res
  | found (stack : List String)
  | not_found
  | fuel_out
deriving DecidableEq

/-- One `for (child : root->edges())` loop of the C++ depth-first helper:
push the child, recurse (through `rec`), pop on `not_found`. -/
def dfs_kids (rec : String → List String → dfs_res) :
    List String → List String → dfs_res
  | [], _ => .not_found
  | c :: rest, stack =>
    match rec c (stack ++ [c]) with
    | .found s => .found s
    | .fuel_out => .fuel_out
    | .not_found => dfs_kids rec rest stack

/-- C++ `tree::_depth_first_search(root, dst, stack)` (recursive helper):
immediate match, else recurse into the children in adjacency order. -/
def tree.dfs_go (t : tree α) (fuel : Nat) (cur dst : String)
    (stack : List String) : dfs_res :=
  if cur = dst then .found stack
  else
    match fuel with
    | 0 => .fuel_out
    | fuel' + 1 => dfs_kids (fun c st => t.dfs_go fuel' c dst st) (t.children_of cur) stack

/-- C++ `tree::_depth_first_search(dst)`: run the helper from the root with
stack `[root]`; on success the stack is the returned path.  The C++ recursion
is unbounded; fuel `t.size` strictly dominates the recursion depth of every
tree built by the public API, so exhaustion is unreachable there. -/
def tree.dfs_path (t : tree α) (dst : String) : List String :=
  match t.dfs_go t.size t.root_label dst [t.root_label] with
  | .found s => s
  | _ => []

/-- Result of the C++ breadth-first helper: `found` carries the accumulated
`node_pairs` back-references. -/
inductive bfs_res
  | found (pairs : List (String × Option String))
  | not_found
  | fuel_out
deriving DecidableEq

/-- C++ `tree::_breath_first_search(dst, queue, node_pairs)`: test the front,
else enqueue the front's children with their back-references and recurse.
The first call always receives a non-empty queue; recursive calls are guarded
by the `queue.size() == 0` check. -/
def tree.bfs_go (t : tree α) (fuel : Nat) (dst : String)
    (queue : List String) (pairs : List (String × Option String)) : bfs_res :=
  match queue with
  | [] => .not_found
  | cur :: qrest =>
    if cur = dst then .found pairs
    else
      let kids := t.children_of cur
      let pairs' := pairs ++ kids.map (fun c => (c, some cur))
      let queue' := qrest ++ kids
      if queue'.isEmpty then .not_found
      else
        match fuel with
        | 0 => .fuel_out
        | fuel' + 1 => t.bfs_go fuel' dst queue' pairs'

/-- The backtracking loop of C++ `tree::_breath_first_search(dst)`: follow the
back-references from the destination up to the root (whose back-reference is
null), accumulating labels; a missing back-reference would dereference a
missing element in C++ (undefined behaviour), modelled as `none`. -/
def tree.backtrack (fuel : Nat) (pairs : List (String × Option String))
    (cur : String) (acc : List String) : Option (List String) :=
  match pairs.find? (fun pr => pr.1 = cur) with
  | none => none
  | some (_, none) => some (acc ++ [cur])
  | some (_, some p) =>
    match fuel with
    | 0 => none
    | fuel' + 1 => tree.backtrack fuel' pairs p (acc ++ [cur])

/-- C++ `tree::_breath_first_search(dst)`: queue seeded with the root, root
paired with a null back-reference; on success backtrack from `dst` and
reverse. -/
def tree.bfs_path (t : tree α) (dst : String) : List String :=
  match t.bfs_go t.size dst [t.root_label] [(t.root_label, none)] with
  | .found pairs =>
    match tree.backtrack t.size pairs dst [] with
    | some backs => backs.reverse
    | none => []
  | _ => []

/-- C++ `tree::path`: empty if `dst` is absent, else the chosen search. -/
def tree.path (t : tree α) (dst : String) (m : search_method) : List String :=
  match t.find_node dst with
  | none => []
  | some _ =>
    match m with
    | .depth => t.dfs_path dst
    | .breath => t.bfs_path dst

/-- C++ `tree::is_descendent_of(label, current_node_label)`: false if either
label is missing, else a depth-first search from `current_node_label` for
`label` (note: immediately true when the two labels coincide). -/
def tree.is_descendent_of (t : tree α) (l cur : String) : Bool :=
  match t.find_node cur, t.find_node l with
  | some _, some _ =>
    match t.dfs_go t.size cur l [cur] with
    | .found _ => true
    | _ => false
  | _, _ => false

/-- C++ `tree::is_ancestor_of(label, current_node_label)`: delegates to
`is_descendent_of` with the arguments swapped. -/
def tree.is_ancestor_of (t : tree α) (l cur : String) : Bool :=
  t.is_descendent_of cur l

/-- The trees reachable through the public API: a constructor call followed by
`append_node` calls. -/
inductive built : tree α → Prop
  | root (l : String) (d : α) : built (tree.init l d)
  | append {t : tree α} (p l : String) (d : α) : built t → built (t.append_node p l d)

/-! ## digraph.hpp : the depth-first-forest / SCC part

`scc_from_forest` has an empty body in the source (and is never called), so
only the forest construction is embedded.  The private recursive
`make_depth_first_forest` threads five arc vectors, the labelled-node vector
and the forest by reference; that state is `forest_state`.  The C++ recursion
is unbounded (and indeed diverges on cyclic graphs), hence the fuel. -/

/-- C++ `digraph::node_status`. -/
inductive node_status
  | pristine
  | visited
  | completed
deriving DecidableEq

/-- C++ `digraph::labeled_node`. -/
structure labeled_node where
  status : node_status
  label : String
  edges : List String
deriving DecidableEq

/-- The by-reference arguments of the private C++ `make_depth_first_forest`. -/
structure forest_state (α : Type) where
  nodes : List labeled_node
  forest : List (tree α)
  tree_arcs : List (String × String)
  back_arcs : List (String × String)
  loops : List (String × String)
  fwd_arcs : List (String × String)
  cross_arcs : List (String × String)
deriving DecidableEq

/-- `std::find_if` returning the index together with the element found. -/
def find_idx_node (p : labeled_node → Bool) : List labeled_node → Option (Nat × labeled_node)
  | [] => none
  | x :: xs => if p x then some (0, x) else (find_idx_node p xs).map (fun r => (r.1 + 1, r.2))

/-- C++ `std::find_if (nodes.rbegin(), nodes.rend(), visited)` converted back
to a forward index: the index of the last `visited` node. -/
def find_last_visited (ns : List labeled_node) : Option Nat :=
  (find_idx_node (fun n => n.status == .visited) ns.reverse).map (fun r => ns.length - 1 - r.1)

/-- In-place mutation of the `i`-th list element. -/
def list_modify_at (f : β → β) : Nat → List β → List β
  | _, [] => []
  | 0, x :: xs => f x :: xs
  | i + 1, x :: xs => x :: list_modify_at f i xs

/-- The `for (edge_label : current_node_itr->edges)` loop of the private C++
`make_depth_first_forest`: look the target up, classify the arc, recurse
(through `rec`, the recursion at one fuel level lower), continue with the
remaining edges.  A failed label lookup or an empty forest would dereference
an invalid iterator in C++ (undefined behaviour), modelled as `none`. -/
def go_edges [Inhabited α] (rec : forest_state α → Nat → Option (forest_state α)) :
    forest_state α → Nat → List String → Option (forest_state α)
  | st, _, [] => some st
  | st, cur, e :: rest =>
    match find_idx_node (fun n => n.label == e) st.nodes with
    | none => none
    | some (ti, tn) =>
      match (st.nodes.get? cur).map (·.label) with
      | none => none
      | some cur_label =>
        match st.forest.getLast? with
        | none => none
        | some bt =>
          let st' :=
            if tn.status == .pristine then
              { st with
                  tree_arcs := st.tree_arcs ++ [(cur_label, e)],
                  forest := st.forest.dropLast ++ [bt.append_node cur_label e default] }
            else if bt.is_ancestor_of e cur_label then
              { st with back_arcs := st.back_arcs ++ [(cur_label, e)] }
            else if cur == ti then
              { st with loops := st.loops ++ [(cur_label, e)] }
            else if bt.is_descendent_of e cur_label then
              { st with fwd_arcs := st.fwd_arcs ++ [(cur_label, e)] }
            else
              { st with cross_arcs := st.cross_arcs ++ [(cur_label, e)] }
          match rec st' ti with
          | none => none
          | some st'' => go_edges rec st'' cur rest

/-- The private C++ `make_depth_first_forest` (recursion on the current node):
if the current node is `completed`, recurse into the last `visited` node if
any, then open a new tree at the first `pristine` node if any; otherwise
process the current node's edges.  Note that the source never assigns the
`completed` status anywhere, so on every actual run only the `else` branch
executes. -/
def mdff [Inhabited α] : Nat → forest_state α → Nat → Option (forest_state α)
  | 0, _, _ => none
  | fuel + 1, st, cur =>
    match st.nodes.get? cur with
    | none => none
    | some cn =>
      if cn.status == .completed then
        let st1opt :=
          match find_last_visited st.nodes with
          | some i => mdff fuel st i
          | none => some st
        match st1opt with
        | none => none
        | some st1 =>
          match find_idx_node (fun n => n.status == .pristine) st1.nodes with
          | none => some st1
          | some (j, nj) =>
            some { st1 with
                    nodes := list_modify_at (fun n => { n with status := .visited }) j st1.nodes,
                    forest := st1.forest ++ [tree.init nj.label default] }
      else
        go_edges (mdff fuel) st cur cn.edges

/-- C++ `digraph::make_labeled_graph`: snapshot of labels and edge labels,
all statuses `pristine`. -/
def make_labeled_graph (g : digraph α) : List labeled_node :=
  g.nodes.map (fun n => ⟨.pristine, n.label, n.edges⟩)

/-- The public C++ `make_depth_first_forest` up to its return value: seed the
forest with a tree rooted at the *last* node (`labeled_graph.end() - 1`) and
run the private recursion from there, exposing the whole final state.  On an
empty graph `end() - 1` is undefined behaviour, modelled as `none`. -/
def run_forest [Inhabited α] (g : digraph α) (fuel : Nat) : Option (forest_state α) :=
  let lg := make_labeled_graph g
  match lg.getLast? with
  | none => none
  | some last_node =>
    mdff fuel ⟨lg, [tree.init last_node.label default], [], [], [], [], []⟩ (lg.length - 1)

/-- The public C++ `make_depth_first_forest`: it returns only the forest and
discards the arc vectors. -/
def make_depth_first_forest [Inhabited α] (g : digraph α) (fuel : Nat) :
    Option (List (tree α)) :=
  (run_forest g fuel).map (·.forest)

/-! ## Derived definitions used by the statements and proofs -/

/-- C++ `digraph()` default constructor: the empty graph. -/
def digraph.init : digraph α :=
  ⟨[]⟩

/-- The root label of the first spanning tree of a forest state. -/
def head_root (st : forest_state α) : Option String :=
  st.forest.head?.map tree.root_label

/-- Example graph: vertices `A` then `B`, no edges. -/
def example_g_ab : digraph Nat :=
  ((digraph.init).create_node "A" 0).create_node "B" 0

/-- Example graph: a single vertex `A` carrying a self-loop. -/
def example_g_loop : digraph Nat :=
  ((digraph.init).create_node "A" 0).connect_node "A" "A"

/-- Example graph: the diamond `A → B → D`, `A → C → D`, inserted so that `A`
is the last vertex (where the C++ traversal starts). -/
def example_g_diamond : digraph Nat :=
  ((((((((digraph.init).create_node "B" 0).create_node "C" 0).create_node "D" 0).create_node
    "A" 0).connect_node "A" "B").connect_node "A" "C").connect_node "B" "D").connect_node "C" "D"

/-- Example tree: the chain `O → N → J → L → E → I` of the C++ test suite. -/
def example_chain_tree : tree Nat :=
  (((((tree.init "O" 0).append_node "O" "N" 0).append_node "N" "J" 0).append_node
    "J" "L" 0).append_node "L" "E" 0).append_node "E" "I" 0

/-! ## Derived definitions: tree structure (parent, ancestor chain)

These definitions do not come from the C++ code; they name the structure that
`append_node` creates, and the proofs show the C++ searches compute them. -/

/-- The labels of a tree's nodes in insertion order. -/
def tree.labels (t : tree α) : List String :=
  t.nodes.map (·.label)

/-- Index of the first node carrying label `x` in a label list (length if
absent). -/
def lidx (x : String) : List String → Nat
  | [] => 0
  | y :: ys => if y = x then 0 else lidx x ys + 1

/-- The (unique, by construction) parent of `l`: the first node whose
adjacency contains `l`. -/
def parent_of? (t : tree α) (l : String) : Option String :=
  (t.nodes.find? (fun n => decide (l ∈ n.edges))).map (·.label)

/-- The ancestor chain of `l`, root first, ending at `l`, obtained by
following parents upwards; `fuel` bounds the number of parent steps
(`t.size` suffices on trees built by the public API). -/
def anc_up (t : tree α) (fuel : Nat) (l : String) : List String :=
  match parent_of? t l, fuel with
  | none, _ => [l]
  | some _, 0 => [l]
  | some p, fuel' + 1 => anc_up t fuel' p ++ [l]

/-- The ancestor chain of `l` with the canonical fuel. -/
def anc_chain (t : tree α) (l : String) : List String :=
  anc_up t t.size l

/-- The edge relation of a tree: `a` has `b` in its adjacency. -/
def tedge (t : tree α) (a b : String) : Prop :=
  ∃ n ∈ t.nodes, n.label = a ∧ b ∈ n.edges

/-- Structural invariant maintained by the tree constructor and
`append_node`: non-empty node list, unique labels, adjacency closed under the
label set, edges pointing strictly forward in insertion order, and every
non-root label having exactly one incoming edge (the flattened adjacency
lists are a permutation of the non-root labels). -/
structure tinv (t : tree α) : Prop where
  ne : t.nodes ≠ []
  nodup : t.labels.Nodup
  closed : ∀ n ∈ t.nodes, ∀ c ∈ n.edges, c ∈ t.labels
  fwd : ∀ n ∈ t.nodes, ∀ c ∈ n.edges, lidx n.label t.labels < lidx c t.labels
  perm : ((t.nodes.map (·.edges)).flatten).Perm (t.labels.drop 1)

/-- The labels enqueued by the C++ breadth-first search after the members of
`done` have been dequeued (in that order): the root, then the children of
each dequeued node. -/
def enq_list (t : tree α) (done : List String) : List String :=
  t.root_label :: (done.map (fun d => t.children_of d)).flatten

/-- The `node_pairs` back-reference list accumulated by the C++ breadth-first
search after the members of `done` have been dequeued. -/
def pairs_list (t : tree α) (done : List String) : List (String × Option String) :=
  (t.root_label, none) :: (done.map (fun d => (t.children_of d).map
    (fun c => (c, some d)))).flatten

/-- Invariant of the C++ breadth-first loop, in terms of the list `done` of
dequeued labels: enqueued labels are labels of the tree and pairwise
distinct, `done` is a prefix of the enqueued list, `done` is closed under
parents, and the destination has not been dequeued. -/
structure bfs_inv (t : tree α) (dst : String) (done : List String) : Prop where
  sub : ∀ x ∈ enq_list t done, x ∈ t.labels
  nodup : (enq_list t done).Nodup
  pref : done = (enq_list t done).take done.length
  closed : ∀ x ∈ done, ∀ p, parent_of? t x = some p → p ∈ done
  nodst : dst ∉ done

/-! ## Lemmas: basic preservation facts -/

theorem node.connect_label {ι β : Type} [DecidableEq ι] (n : node ι β) (c : ι) :
    (n.connect c).label = n.label := by
  unfold node.connect; split <;> rfl

theorem tree.root_label_append {β : Type} (t : tree β) (p l : String) (d : β) :
    (t.append_node p l d).root_label = t.root_label := by
  unfold tree.append_node
  split
  · rfl
  · split
    · rfl
    · rename_i w hp
      cases hn : t.nodes with
      | nil =>
        exfalso
        unfold tree.find_node at hp
        rw [hn] at hp
        simp at hp
      | cons x xs =>
        unfold tree.root_label
        rw [hn]
        unfold list_update_first
        split
        · simp [node.connect_label]
        · simp

theorem head_root_update_last {α : Type} (l : List (tree α)) (bt : tree α)
    (hbt : l.getLast? = some bt) (f : tree α → tree α)
    (hf : (f bt).root_label = bt.root_label) :
    ((l.dropLast ++ [f bt]).head?.map tree.root_label = l.head?.map tree.root_label) ∧
      l.dropLast ++ [f bt] ≠ [] := by
  induction l with
  | nil => simp at hbt
  | cons x xs ih =>
    cases xs with
    | nil =>
      simp at hbt
      subst hbt
      simp [hf]
    | cons y ys =>
      refine ⟨?_, by simp⟩
      rw [List.dropLast_cons₂]
      simp

/-- Whatever the private C++ recursion does, the forest stays non-empty and
the root of its first tree never changes: new trees are appended at the back,
`append_node` targets the back tree and preserves its root. -/
theorem mdff_head_root [Inhabited α] :
    ∀ (fuel : Nat) (st : forest_state α) (cur : Nat) (st' : forest_state α),
    st.forest ≠ [] → mdff fuel st cur = some st' →
    st'.forest ≠ [] ∧ head_root st' = head_root st := by
  intro fuel
  induction fuel with
  | zero => intro st cur st' hne h; exact absurd h (by simp [mdff])
  | succ n ih =>
    have go_ih : ∀ (es : List String) (st : forest_state α) (cur : Nat) (st' : forest_state α),
        st.forest ≠ [] → go_edges (mdff n) st cur es = some st' →
        st'.forest ≠ [] ∧ head_root st' = head_root st := by
      intro es
      induction es with
      | nil =>
        intro st cur st' hne h
        unfold go_edges at h
        cases h
        exact ⟨hne, rfl⟩
      | cons e rest iih =>
        intro st cur st' hne h
        unfold go_edges at h
        split at h
        · exact absurd h (by simp)
        rename_i ti tn _
        split at h
        · exact absurd h (by simp)
        rename_i cur_label _
        split at h
        · exact absurd h (by simp)
        rename_i bt hbt
        have key : ∀ stm : forest_state α,
            (match mdff n stm ti with
             | none => none
             | some st'' => go_edges (mdff n) st'' cur rest) = some st' →
            stm.forest ≠ [] → head_root stm = head_root st →
            st'.forest ≠ [] ∧ head_root st' = head_root st := by
          intro stm hm hmne hmhr
          split at hm
          · exact absurd hm (by simp)
          rename_i st'' heq
          obtain ⟨h1, h2⟩ := ih stm ti st'' hmne heq
          obtain ⟨h3, h4⟩ := iih st'' cur st' h1 hm
          exact ⟨h3, by rw [h4, h2, hmhr]⟩
        split at h
        · exact key _ h
            (head_root_update_last st.forest bt hbt
              (fun tx => tx.append_node cur_label e default)
              (tree.root_label_append bt cur_label e default)).2
            (head_root_update_last st.forest bt hbt
              (fun tx => tx.append_node cur_label e default)
              (tree.root_label_append bt cur_label e default)).1
        · split at h
          · exact key _ h hne rfl
          · split at h
            · exact key _ h hne rfl
            · split at h
              · exact key _ h hne rfl
              · exact key _ h hne rfl
    intro st cur st' hne h
    unfold mdff at h
    split at h
    · exact absurd h (by simp)
    rename_i cn _
    split at h
    · -- completed branch: recurse into the last visited node if any, then
      -- open a new tree at the first pristine node if any
      split at h
      · rename_i i hvis
        simp only [] at h
        split at h
        · exact absurd h (by simp)
        rename_i st1 heq2
        obtain ⟨hf1, hf2⟩ := ih st i st1 hne heq2
        split at h
        · cases h; exact ⟨hf1, hf2⟩
        · cases h
          refine ⟨by simp, ?_⟩
          show (st1.forest ++ _).head?.map tree.root_label = _
          rw [List.head?_append]
          cases hh : st1.forest.head? with
          | none => exact absurd (List.head?_eq_none_iff.mp hh) hf1
          | some tt => simpa [head_root, hh] using hf2
      · simp only [] at h
        split at h
        · cases h; exact ⟨hne, rfl⟩
        · cases h
          refine ⟨by simp, ?_⟩
          show (st.forest ++ _).head?.map tree.root_label = _
          rw [List.head?_append]
          cases hh : st.forest.head? with
          | none => exact absurd (List.head?_eq_none_iff.mp hh) hne
          | some tt => simp [head_root, hh]
    · exact go_ih cn.edges st cur st' hne h

/-- On the one-vertex self-loop graph the private C++ recursion re-enters the
same node with all statuses still `pristine` (no code path ever assigns
`visited` or `completed` on this run), so it never returns: every fuel bound
is exhausted. -/
theorem mdff_loop_none : ∀ (fuel : Nat) (st : forest_state Nat),
    st.nodes = [⟨.pristine, "A", ["A"]⟩] → mdff fuel st 0 = none := by
  intro fuel
  induction fuel with
  | zero => intro st h; rfl
  | succ n ih =>
    intro st h
    rw [mdff.eq_def]
    simp only [h]
    simp only [List.get?, go_edges, h, find_idx_node]
    simp
    cases hf : st.forest.getLast? with
    | none => simp [hf]
    | some bt => simp [hf, ih]

/-! ## Lemmas: container lookups and the ownership invariant -/

theorem node_with_label_isSome {α : Type} (g : digraph α) (l : String) :
    (g.node_with_label l).isSome = true ↔ l ∈ g.labels := by
  unfold digraph.node_with_label digraph.labels
  rw [List.find?_isSome]
  simp

theorem node_with_label_none {α : Type} (g : digraph α) (l : String) :
    g.node_with_label l = none ↔ l ∉ g.labels := by
  unfold digraph.node_with_label digraph.labels
  rw [List.find?_eq_none]
  simp

theorem disconnect_of_not_mem {α : Type} {n : node String α} {l : String}
    (h : l ∉ n.edges) : n.disconnect l = n := by
  unfold node.disconnect
  have : n.edges.filter (fun e => e ≠ l) = n.edges :=
    List.filter_eq_self.mpr (fun e he => by simp; exact fun h' => h (h' ▸ he))
  cases n; simp_all

/-- Under the ownership invariant, removing an absent label is a no-op: no
adjacency entry can reference the absent label, so both the disconnect pass
and the removal pass leave every node unchanged. -/
theorem remove_node_absent {α : Type} (g : digraph α) (hw : g.wf) (l : String)
    (hl : l ∉ g.labels) : g.remove_node l = g := by
  obtain ⟨hnd, hedge⟩ := hw
  unfold digraph.remove_node
  have h1 : g.nodes.map (fun n => n.disconnect l) = g.nodes := by
    conv_rhs => rw [← List.map_id g.nodes]
    apply List.map_congr_left
    intro n hn
    exact disconnect_of_not_mem (fun he => hl (hedge n hn l he))
  rw [h1]
  have h2 : g.nodes.filter (fun n => decide (n.label ≠ l)) = g.nodes := by
    apply List.filter_eq_self.mpr
    intro n hn
    simp
    intro h'
    exact absurd (h' ▸ List.mem_map_of_mem (·.label) hn) hl
  rw [h2]

theorem labels_remove {α : Type} (g : digraph α) (l : String) :
    (g.remove_node l).labels = g.labels.filter (fun m => decide (m ≠ l)) := by
  unfold digraph.remove_node digraph.labels
  show ((g.nodes.map (fun n => n.disconnect l)).filter _).map (·.label) = _
  induction g.nodes with
  | nil => rfl
  | cons x xs ih =>
    by_cases hx : x.label = l
    · simpa [node.disconnect, hx] using ih
    · simpa [node.disconnect, hx] using ih

theorem wf_create {α : Type} (g : digraph α) (hw : g.wf) (l : String) (d : α) :
    (g.create_node l d).wf := by
  unfold digraph.create_node
  split
  · exact hw
  · rename_i hns
    have hl : l ∉ g.labels := fun h => hns ((node_with_label_isSome g l).mpr h)
    obtain ⟨hnd, hedge⟩ := hw
    constructor
    · show ((g.nodes ++ [(⟨l, d, []⟩ : node String α)]).map (fun n => n.label)).Nodup
      rw [List.map_append]
      simp [List.nodup_append]
      refine ⟨hnd, fun x hx hxl => hl ?_⟩
      exact hxl ▸ List.mem_map_of_mem (·.label) hx
    · intro n hn e he
      show e ∈ (g.nodes ++ [(⟨l, d, []⟩ : node String α)]).map (fun n => n.label)
      rw [List.map_append]
      rcases List.mem_append.mp hn with hn' | hn'
      · exact List.mem_append.mpr (Or.inl (hedge n hn' e he))
      · simp at hn'
        subst hn'
        simp at he

theorem wf_remove {α : Type} (g : digraph α) (hw : g.wf) (l : String) :
    (g.remove_node l).wf := by
  obtain ⟨hnd, hedge⟩ := hw
  constructor
  · rw [labels_remove]
    exact hnd.filter _
  · intro n hn e he
    unfold digraph.remove_node at hn
    simp only at hn
    rcases List.mem_filter.mp hn with ⟨hn', _⟩
    rcases List.mem_map.mp hn' with ⟨m, hm, hmn⟩
    subst hmn
    unfold node.disconnect at he
    simp only at he
    rcases List.mem_filter.mp he with ⟨he', hne⟩
    simp at hne
    rw [labels_remove]
    rw [List.mem_filter]
    exact ⟨hedge m hm e he', by simpa using hne⟩

theorem wf_connect {α : Type} (g : digraph α) (hw : g.wf) (hl tl : String) :
    (g.connect_node hl tl).wf := by
  obtain ⟨hnd, hedge⟩ := hw
  unfold digraph.connect_node
  split
  · rename_i head tail hh ht
    have hlabels : (list_update_first (fun n => n.label == hl)
        (fun n => n.connect tail.label) g.nodes).map (·.label) = g.nodes.map (·.label) :=
      list_update_first_map_eq _ _ _ (fun b _ => node.connect_label b _) g.nodes
    constructor
    · show (list_update_first _ _ g.nodes).map (·.label) |>.Nodup
      rw [hlabels]; exact hnd
    · intro n hn e he
      show e ∈ (list_update_first _ _ g.nodes).map (·.label)
      rw [hlabels]
      have htail : tail.label ∈ g.nodes.map (·.label) :=
        List.mem_map_of_mem (·.label) (List.mem_of_find?_eq_some ht)
      rcases mem_list_update_first _ _ _ n hn with hn' | ⟨a, ha, _, hna⟩
      · exact hedge n hn' e he
      · subst hna
        unfold node.connect at he
        split at he
        · exact hedge a ha e he
        · simp at he
          rcases he with he | he
          · exact hedge a ha e he
          · rw [he]; exact htail
  · exact ⟨hnd, hedge⟩

/-! ## Claim theorems -/

/-- C1: the claim states that the SCC computation returns a partition of the
vertex set (every vertex in exactly one SCC, mutually reachable sets in one
SCC, singletons for self-loop / no-back-edge vertices, reverse topological
emission).  The code has no SCC computation at all: `scc_from_forest` has an
empty body and is never called, and the only related computation, the public
`make_depth_first_forest`, does not even cover the vertex set: on the graph
with vertices `A`, `B` (in that insertion order) and no edges it returns a
forest consisting of the single one-node tree `B`, so vertex `A` belongs to
no spanning tree and no component whatsoever. -/
theorem claim_C1 :
    make_depth_first_forest example_g_ab 5 = some [tree.init "B" 0] ∧
    "A" ∈ example_g_ab.labels ∧
    (tree.init "B" (0 : Nat)).contains_node "A" = false := by
  refine ⟨by decide, by decide, by decide⟩

/-- C2: the claim states that the depth-first-forest / SCC computation always
terminates on well-formed graphs with every vertex discovered and completed
exactly once, using an explicit (non-recursive) stack.  The code is an
unbounded recursion that never updates any discovery status, so on the
well-formed one-vertex graph with the self-loop `A → A` it recurses forever:
the embedded computation exhausts every fuel bound. -/
theorem claim_C2 : ∀ fuel : Nat, make_depth_first_forest example_g_loop fuel = none := by
  intro fuel
  show (run_forest example_g_loop fuel).map _ = none
  have h : run_forest example_g_loop fuel =
      mdff fuel ⟨[⟨.pristine, "A", ["A"]⟩], [tree.init "A" 0], [], [], [], [], []⟩ 0 := rfl
  rw [h, mdff_loop_none _ _ rfl]
  rfl

/-- C3: the claim states that an arc whose target is already discovered is
classified as back / loop / forward / cross (and in particular that a
self-loop becomes a loop arc).  In the code, statuses are never updated from
`pristine`, so the classification branch is unreachable: on the diamond graph
the arc `C → D` is traversed while `D` is already in the spanning tree
(tree arc `B → D` precedes it), yet it is recorded as a *tree* arc and the
back/loop/forward/cross lists all stay empty; and on the self-loop graph the
self-loop is never recorded as a loop arc, since the traversal of it never
returns at any fuel bound. -/
theorem claim_C3 :
    ((run_forest example_g_diamond 20).map
        (fun s => (s.tree_arcs, s.back_arcs, s.loops, s.fwd_arcs, s.cross_arcs)) =
      some ([("A", "B"), ("B", "D"), ("A", "C"), ("C", "D")], [], [], [], [])) ∧
    ∀ fuel : Nat, run_forest example_g_loop fuel = none := by
  refine ⟨by rfl, ?_⟩
  intro fuel
  show mdff fuel ⟨[⟨.pristine, "A", ["A"]⟩], [tree.init "A" 0], [], [], [], [], []⟩ 0 = none
  exact mdff_loop_none _ _ rfl

/-- C4 (counterexample): the claim states that vertices are visited in
container insertion order and hence that the first spanning-tree root is the
first vertex inserted.  On the graph with vertices `A`, `B` (inserted in that
order) and no edges, the computation returns the single tree rooted at `B`,
the *last* vertex inserted, not at `A`. -/
theorem claim_C4_counterexample :
    example_g_ab.labels = ["A", "B"] ∧
    make_depth_first_forest example_g_ab 5 = some [tree.init "B" 0] ∧
    (tree.init "B" (0 : Nat)).root_label = "B" := by
  refine ⟨rfl, by decide, rfl⟩

/-- C4 (amended): the computation starts at the last vertex in the container
(`labeled_graph.end() - 1`): whenever the public `make_depth_first_forest`
returns, the root of the first spanning tree is the label of the *last*
vertex inserted into the digraph. -/
theorem claim_C4 {α : Type} [Inhabited α] (g : digraph α)
    (fuel : Nat) (f : List (tree α)) (h : make_depth_first_forest g fuel = some f) :
    f.head?.map tree.root_label = g.nodes.getLast?.map (·.label) := by
  unfold make_depth_first_forest run_forest at h
  simp only [] at h
  cases hlast : (make_labeled_graph g).getLast? with
  | none => rw [hlast] at h; simp at h
  | some ln =>
    rw [hlast] at h
    rw [Option.map_eq_some'] at h
    obtain ⟨st', hm, hf⟩ := h
    obtain ⟨hne, hhr⟩ := mdff_head_root fuel _ _ st' (by simp) hm
    have h1 : head_root st' = some ln.label := by
      rw [hhr]; simp [head_root, tree.init, tree.root_label]
    have h2 : g.nodes.getLast?.map (·.label) = some ln.label := by
      unfold make_labeled_graph at hlast
      rw [List.getLast?_map] at hlast
      cases hg : g.nodes.getLast? with
      | none => rw [hg] at hlast; simp at hlast
      | some gn =>
        rw [hg] at hlast
        simp at hlast
        simp [← hlast]
    rw [h2, ← h1]
    unfold head_root
    rw [hf]

/-- Witness for C4 at a concrete input: on the two-vertex graph the returned
forest's first root is the label of the last vertex inserted. -/
theorem claim_C4_witness :
    make_depth_first_forest example_g_ab 5 = some [tree.init "B" 0] ∧
    ([tree.init "B" (0 : Nat)].head?.map tree.root_label =
      example_g_ab.nodes.getLast?.map (·.label)) :=
  ⟨by decide, claim_C4 example_g_ab 5 [tree.init "B" 0] (by decide)⟩

/-- C6: `remove_node` removes the vertex labelled `l` and deletes, from every
remaining vertex, every adjacency entry referencing `l`; all other labels
survive; under the ownership invariant it is a no-op when `l` is absent; and
the invariant (unique labels, adjacency references point to present vertices)
is preserved by `create_node`, `remove_node` and `connect_node`. -/
theorem claim_C6 {α : Type} (g : digraph α) (l : String) :
    (∀ n ∈ (g.remove_node l).nodes, n.label ≠ l ∧ l ∉ n.edges) ∧
    (∀ m : String, m ≠ l → (m ∈ g.labels ↔ m ∈ (g.remove_node l).labels)) ∧
    (g.wf → l ∉ g.labels → g.remove_node l = g) ∧
    (g.wf → ∀ (l2 : String) (d : α) (hl tl : String),
      (g.create_node l2 d).wf ∧ (g.remove_node l2).wf ∧ (g.connect_node hl tl).wf) := by
  refine ⟨fun n hn => ?_, fun m hm => ?_, fun hw hl => remove_node_absent g hw l hl,
    fun hw l2 d hl tl => ⟨wf_create g hw l2 d, wf_remove g hw l2, wf_connect g hw hl tl⟩⟩
  · unfold digraph.remove_node at hn
    simp only at hn
    rcases List.mem_filter.mp hn with ⟨hn', hlab⟩
    simp at hlab
    refine ⟨hlab, ?_⟩
    rcases List.mem_map.mp hn' with ⟨m, _, hmn⟩
    subst hmn
    unfold node.disconnect
    simp
  · rw [labels_remove]
    rw [List.mem_filter]
    simp [hm]

/-- Witness for C6 at a concrete input: removing `A` from the graph
`{A, B}` keeps label `B`. -/
theorem claim_C6_witness :
    ("B" ∈ (((digraph.init : digraph Nat).create_node "A" 0).create_node "B" 0).labels ↔
      "B" ∈ ((((digraph.init : digraph Nat).create_node "A" 0).create_node "B" 0).remove_node
        "A").labels) :=
  (claim_C6 _ "A").2.1 "B" (by decide)

/-- C7: every lookup by an unknown label is total and locally recovered:
`create_node` of an existing label, `connect_node` with a missing endpoint,
`remove_node` of a missing label (under the ownership invariant) and
`append_node` with an existing child or missing parent all leave the state
unchanged and raise nothing, while the query operations `is_connected` and
`path` return `false` / the empty sequence on a miss. -/
theorem claim_C7 {α : Type} :
    (∀ (g : digraph α) (l : String) (d : α), l ∈ g.labels → g.create_node l d = g) ∧
    (∀ (g : digraph α) (hl tl : String), hl ∉ g.labels ∨ tl ∉ g.labels →
      g.connect_node hl tl = g) ∧
    (∀ (g : digraph α), g.wf → ∀ l : String, l ∉ g.labels → g.remove_node l = g) ∧
    (∀ (g : digraph α) (hl tl : String), hl ∉ g.labels ∨ tl ∉ g.labels →
      g.is_connected hl tl = false) ∧
    (∀ (t : tree α) (p l : String) (d : α),
      t.contains_node l = true ∨ t.contains_node p = false → t.append_node p l d = t) ∧
    (∀ (t : tree α) (dst : String) (m : search_method),
      t.contains_node dst = false → t.path dst m = []) := by
  refine ⟨fun g l d h => ?_, fun g hl tl h => ?_, fun g hw l h => remove_node_absent g hw l h,
    fun g hl tl h => ?_, fun t p l d h => ?_, fun t dst m h => ?_⟩
  · unfold digraph.create_node
    rw [if_pos ((node_with_label_isSome g l).mpr h)]
  · unfold digraph.connect_node
    rcases h with h | h
    · rw [(node_with_label_none g hl).mpr h]
    · rw [(node_with_label_none g tl).mpr h]
      split <;> simp_all
  · unfold digraph.is_connected
    rcases h with h | h
    · rw [(node_with_label_none g hl).mpr h]
    · rw [(node_with_label_none g tl).mpr h]
      split <;> simp_all
  · unfold tree.append_node
    rcases h with h | h
    · unfold tree.contains_node at h
      rw [if_pos h]
    · unfold tree.contains_node at h
      split
      · rfl
      · have hnone : t.find_node p = none := by
          cases hfp : t.find_node p
          · rfl
          · rw [hfp] at h; simp at h
        rw [hnone]
  · unfold tree.path
    unfold tree.contains_node at h
    have hnone : t.find_node dst = none := by
      cases hfd : t.find_node dst
      · rfl
      · rw [hfd] at h; simp at h
    rw [hnone]

/-- Witness for C7 at concrete inputs: removing the absent label `Z` from the
graph `{A, B}` is a no-op, and appending under the absent parent `Q` in the
chain tree is a no-op. -/
theorem claim_C7_witness :
    (example_g_ab.wf ∧ "Z" ∉ example_g_ab.labels ∧
      example_g_ab.remove_node "Z" = example_g_ab) ∧
    example_chain_tree.append_node "Q" "X" 0 = example_chain_tree :=
  ⟨⟨⟨by decide, by decide⟩, by decide,
      claim_C7.2.2.1 example_g_ab ⟨by decide, by decide⟩ "Z" (by decide)⟩,
    claim_C7.2.2.2.2.1 example_chain_tree "Q" "X" 0 (Or.inr (by decide))⟩

/-- C8: `connect` is idempotent (connecting the same target twice yields the
same adjacency as once), a connection not already present adds exactly one
edge to `count_connections`, and in particular a self-connection on a fresh
node is permitted and counts as exactly one edge (the identifier `i` may be
the node's own address). -/
theorem claim_C8 {ι α : Type} [DecidableEq ι] :
    (∀ (n : node ι α) (i : ι), (n.connect i).connect i = n.connect i) ∧
    (∀ (n : node ι α) (i : ι), n.is_connected i = false →
      (n.connect i).count_connections = n.count_connections + 1) ∧
    (∀ (l : String) (d : α) (i : ι), ((node.mk l d []).connect i).count_connections = 1) := by
  refine ⟨fun n i => ?_, fun n i h => ?_, fun l d i => ?_⟩
  · unfold node.connect node.is_connected
    by_cases hm : i ∈ n.edges
    · simp [hm]
    · simp [hm]
  · have h' : i ∉ n.edges := by simpa [node.is_connected] using h
    simp [node.connect, node.is_connected, h', node.count_connections]
  · unfold node.connect node.is_connected node.count_connections
    simp

/-- Witness for C8 at a concrete input: a fresh connection adds exactly one
edge. -/
theorem claim_C8_witness :
    ((node.mk "a" (0 : Nat) [] : node Nat Nat).is_connected 5 = false) ∧
    (((node.mk "a" (0 : Nat) [] : node Nat Nat).connect 5).count_connections =
      (node.mk "a" (0 : Nat) [] : node Nat Nat).count_connections + 1) :=
  ⟨by decide, claim_C8.2.1 _ 5 (by decide)⟩

section TreeStruct
variable {α : Type}

theorem lidx_lt_length {x : String} : ∀ {L : List String}, x ∈ L → lidx x L < L.length := by
  intro L
  induction L with
  | nil => intro h; simp at h
  | cons y ys ih =>
    intro h
    unfold lidx
    by_cases hy : y = x
    · simp [hy]
    · simp [hy]
      have : x ∈ ys := by rcases List.mem_cons.mp h with h' | h'; exact absurd h'.symm hy; exact h'
      exact ih this

theorem lidx_append_left {x : String} : ∀ {L : List String} (M : List String),
    x ∈ L → lidx x (L ++ M) = lidx x L := by
  intro L
  induction L with
  | nil => intro M h; simp at h
  | cons y ys ih =>
    intro M h
    unfold lidx
    by_cases hy : y = x
    · simp [hy]
    · simp only [List.cons_append, lidx, hy, if_false]
      have : x ∈ ys := by rcases List.mem_cons.mp h with h' | h'; exact absurd h'.symm hy; exact h'
      rw [ih M this]

theorem lidx_append_fresh {x : String} : ∀ {L : List String},
    x ∉ L → lidx x (L ++ [x]) = L.length := by
  intro L
  induction L with
  | nil => intro _; simp [lidx]
  | cons y ys ih =>
    intro h
    have hy : y ≠ x := fun hc => h (hc ▸ List.mem_cons_self y ys)
    have hx : x ∉ ys := fun hc => h (List.mem_cons_of_mem y hc)
    simp only [List.cons_append, lidx, hy, if_false]
    show lidx x (ys ++ [x]) + 1 = _
    rw [ih hx]
    rfl

theorem find?_label_nodup {l : String} : ∀ {ns : List (node String α)} {n : node String α},
    (ns.map (·.label)).Nodup → n ∈ ns → n.label = l →
    ns.find? (fun m => m.label = l) = some n := by
  intro ns
  induction ns with
  | nil => intro n _ h; simp at h
  | cons x xs ih =>
    intro n hnd hn hl
    rcases List.mem_cons.mp hn with h' | h'
    · subst h'
      rw [List.find?_cons_of_pos]
      simp [hl]
    · have hx : x.label ≠ l := by
        intro hc
        have : n.label ∈ xs.map (·.label) := List.mem_map_of_mem _ h'
        rw [hl, ← hc] at this
        simp at hnd
        exact hnd.1 _ h' (by rw [hc, ← hl])
      rw [List.find?_cons_of_neg]
      · exact ih (by simp at hnd; exact hnd.2) h' hl
      · simp [hx]

variable {t : tree α}

theorem labels_cons (ht : tinv t) : t.labels = t.root_label :: t.labels.drop 1 := by
  cases hn : t.nodes with
  | nil => exact absurd hn ht.ne
  | cons x xs =>
    unfold tree.labels tree.root_label
    rw [hn]
    rfl

theorem root_mem (ht : tinv t) : t.root_label ∈ t.labels := by
  rw [labels_cons ht]; exact List.mem_cons_self _ _

theorem mem_flatten_edges {x : String} {ns : List (node String α)} :
    x ∈ (ns.map (·.edges)).flatten ↔ ∃ n ∈ ns, x ∈ n.edges := by
  simp [List.mem_flatten]

theorem edges_sublist_flatten {n : node String α} : ∀ {ns : List (node String α)},
    n ∈ ns → n.edges.Sublist ((ns.map (·.edges)).flatten) := by
  intro ns
  induction ns with
  | nil => intro h; simp at h
  | cons x xs ih =>
    intro h
    rcases List.mem_cons.mp h with h' | h'
    · subst h'
      exact List.sublist_append_left _ _
    · exact (ih h').trans (List.sublist_append_right _ _)

theorem flatten_nodup (ht : tinv t) : ((t.nodes.map (·.edges)).flatten).Nodup :=
  ht.perm.nodup_iff.mpr (ht.nodup.sublist (List.drop_sublist 1 _))

theorem parent_of?_root (ht : tinv t) : parent_of? t t.root_label = none := by
  unfold parent_of?
  cases hf : t.nodes.find? (fun n => decide (t.root_label ∈ n.edges)) with
  | none => rfl
  | some m =>
    exfalso
    have h1 : t.root_label ∈ m.edges := by simpa using List.find?_some hf
    have h2 : m ∈ t.nodes := List.mem_of_find?_eq_some hf
    have h3 : t.root_label ∈ t.labels.drop 1 :=
      ht.perm.mem_iff.mp (mem_flatten_edges.mpr ⟨m, h2, h1⟩)
    have h4 := labels_cons ht
    have h5 := ht.nodup
    rw [h4] at h5
    exact (List.nodup_cons.mp h5).1 h3

theorem root_of_no_parent (ht : tinv t) {l : String} (hl : l ∈ t.labels)
    (hp : parent_of? t l = none) : l = t.root_label := by
  unfold parent_of? at hp
  rw [Option.map_eq_none'] at hp
  rw [List.find?_eq_none] at hp
  have h1 : l ∉ t.labels.drop 1 := by
    intro hc
    rcases mem_flatten_edges.mp (ht.perm.mem_iff.mpr hc) with ⟨n, hn, hln⟩
    exact hp n hn (by simpa using hln)
  rw [labels_cons ht] at hl
  rcases List.mem_cons.mp hl with h | h
  · exact h
  · exact absurd h h1

theorem parent_spec {l p : String} (hp : parent_of? t l = some p) :
    ∃ n ∈ t.nodes, n.label = p ∧ l ∈ n.edges := by
  unfold parent_of? at hp
  rw [Option.map_eq_some'] at hp
  rcases hp with ⟨m, hm, hml⟩
  exact ⟨m, List.mem_of_find?_eq_some hm, hml, by simpa using List.find?_some hm⟩

theorem parent_mem (hp : parent_of? t l = some p) : p ∈ t.labels := by
  rcases parent_spec hp with ⟨n, hn, hnp, _⟩
  exact hnp ▸ List.mem_map_of_mem (·.label) hn

theorem parent_lidx (ht : tinv t) {l p : String} (hp : parent_of? t l = some p) :
    lidx p t.labels < lidx l t.labels := by
  rcases parent_spec hp with ⟨n, hn, hnp, hln⟩
  have := ht.fwd n hn l hln
  rwa [hnp] at this

theorem parent_unique (ht : tinv t) {n : node String α} {c : String}
    (hn : n ∈ t.nodes) (hc : c ∈ n.edges) : parent_of? t c = some n.label := by
  unfold parent_of?
  cases hf : t.nodes.find? (fun m => decide (c ∈ m.edges)) with
  | none =>
    exfalso
    rw [List.find?_eq_none] at hf
    exact hf n hn (by simpa using hc)
  | some m =>
    have hcm : c ∈ m.edges := by simpa using List.find?_some hf
    rcases List.find?_eq_some.mp hf with ⟨_, pre, suf, hsplit, hpre⟩
    by_cases hnm : n = m
    · simp [← hnm]
    · exfalso
      have hcnt : ((t.nodes.map (·.edges)).flatten).count c ≤ 1 := by
        have hnd := flatten_nodup ht
        exact List.nodup_iff_count_le_one.mp hnd c
      have hn2 : n ∈ pre ∨ n ∈ suf := by
        rcases List.mem_append.mp (hsplit ▸ hn) with h | h
        · exact Or.inl h
        · rcases List.mem_cons.mp h with h | h
          · exact absurd h hnm
          · exact Or.inr h
      have hnpre : n ∉ pre := by
        intro hc'
        have := hpre n hc'
        simp at this
        exact this hc
      have hnsuf : n ∈ suf := hn2.resolve_left hnpre
      have hge : 2 ≤ ((t.nodes.map (·.edges)).flatten).count c := by
        rw [hsplit]
        simp only [List.map_append, List.map_cons, List.flatten_append, List.flatten_cons,
          List.count_append]
        have c1 : 1 ≤ m.edges.count c := List.one_le_count_iff.mpr hcm
        have c2 : 1 ≤ ((suf.map (·.edges)).flatten).count c :=
          List.one_le_count_iff.mpr (mem_flatten_edges.mpr ⟨n, hnsuf, hc⟩)
        omega
      omega

theorem children_of_eq (ht : tinv t) {n : node String α} (hn : n ∈ t.nodes) :
    t.children_of n.label = n.edges := by
  unfold tree.children_of tree.find_node
  rw [find?_label_nodup ht.nodup hn rfl]
  rfl

theorem mem_children_iff (ht : tinv t) {a b : String} :
    b ∈ t.children_of a ↔ tedge t a b := by
  constructor
  · intro h
    unfold tree.children_of tree.find_node at h
    cases hf : t.nodes.find? (fun m => m.label = a) with
    | none => rw [hf] at h; simp at h
    | some m =>
      rw [hf] at h
      simp at h
      exact ⟨m, List.mem_of_find?_eq_some hf, by simpa using List.find?_some hf, h⟩
  · rintro ⟨n, hn, hna, hb⟩
    rw [← hna, children_of_eq ht hn]
    exact hb

theorem children_nodup (ht : tinv t) (a : String) : (t.children_of a).Nodup := by
  unfold tree.children_of tree.find_node
  cases hf : t.nodes.find? (fun m => m.label = a) with
  | none => simp
  | some m =>
    simp only [Option.map_some', Option.getD_some]
    exact (flatten_nodup ht).sublist (edges_sublist_flatten (List.mem_of_find?_eq_some hf))

theorem children_sub (ht : tinv t) {a b : String} (h : b ∈ t.children_of a) :
    b ∈ t.labels := by
  rcases (mem_children_iff ht).mp h with ⟨n, hn, _, hb⟩
  exact ht.closed n hn b hb


theorem size_eq_labels_length : t.size = t.labels.length := by
  unfold tree.size tree.labels
  simp

theorem anc_up_eq (ht : tinv t) : ∀ (N f1 f2 : Nat) (l : String), l ∈ t.labels →
    lidx l t.labels < N → lidx l t.labels ≤ f1 → lidx l t.labels ≤ f2 →
    anc_up t f1 l = anc_up t f2 l := by
  intro N
  induction N with
  | zero => intro f1 f2 l _ h _ _; omega
  | succ n ih =>
    intro f1 f2 l hl hN h1 h2
    unfold anc_up
    cases hp : parent_of? t l with
    | none => rfl
    | some p =>
      have hpl := parent_lidx ht hp
      have hplm := parent_mem hp
      cases f1 with
      | zero => omega
      | succ f1' =>
        cases f2 with
        | zero => omega
        | succ f2' =>
          simp only []
          rw [ih f1' f2' p hplm (by omega) (by omega) (by omega)]

theorem anc_chain_unfold (ht : tinv t) {l : String} (hl : l ∈ t.labels) :
    anc_chain t l = (match parent_of? t l with
      | none => [l]
      | some p => anc_chain t p ++ [l]) := by
  have hlt : lidx l t.labels < t.size := by
    rw [size_eq_labels_length]; exact lidx_lt_length hl
  cases hp : parent_of? t l with
  | none =>
    unfold anc_chain anc_up
    rw [hp]
  | some p =>
    have hpl := parent_lidx ht hp
    have hpm := parent_mem hp
    show anc_up t t.size l = anc_up t t.size p ++ [l]
    cases hsz : t.size with
    | zero => omega
    | succ s' =>
      have step : anc_up t (s' + 1) l = anc_up t s' p ++ [l] := by
        conv_lhs => rw [anc_up.eq_def]
        rw [hp]
      rw [step]
      exact congrArg (· ++ [l])
        (anc_up_eq ht (lidx p t.labels + 1) s' (s' + 1) p hpm (by omega) (by omega) (by omega))

theorem chain_facts (ht : tinv t) : ∀ (N : Nat) (l : String), l ∈ t.labels →
    lidx l t.labels < N →
    (anc_chain t l).getLast? = some l ∧
    (anc_chain t l).head? = some t.root_label ∧
    (∀ x ∈ anc_chain t l, x ∈ t.labels ∧ lidx x t.labels ≤ lidx l t.labels ∧
        anc_chain t x <+: anc_chain t l) ∧
    (anc_chain t l).Nodup ∧
    List.Chain' (tedge t) (anc_chain t l) := by
  intro N
  induction N with
  | zero => intro l _ h; omega
  | succ n ih =>
    intro l hl hN
    cases hp : parent_of? t l with
    | none =>
      have he : anc_chain t l = [l] := by rw [anc_chain_unfold ht hl, hp]
      have hroot : l = t.root_label := root_of_no_parent ht hl hp
      rw [he]
      refine ⟨rfl, by rw [hroot]; rfl, ?_, by simp, by simp⟩
      intro x hx
      simp at hx
      subst hx
      exact ⟨hl, le_refl _, he ▸ List.prefix_refl _⟩
    | some p =>
      have he : anc_chain t l = anc_chain t p ++ [l] := by rw [anc_chain_unfold ht hl, hp]
      have hpm := parent_mem hp
      have hpl := parent_lidx ht hp
      obtain ⟨ihlast, ihhead, ihmem, ihnodup, ihchain⟩ := ih p hpm (by omega)
      have hne : anc_chain t p ≠ [] := by
        intro hc; rw [hc] at ihlast; simp at ihlast
      rw [he]
      refine ⟨by simp, ?_, ?_, ?_, ?_⟩
      · rw [List.head?_append]
        rw [ihhead]
        rfl
      · intro x hx
        rcases List.mem_append.mp hx with hx | hx
        · obtain ⟨hxl, hxle, hxpre⟩ := ihmem x hx
          exact ⟨hxl, by omega, hxpre.trans (List.prefix_append _ _)⟩
        · simp at hx
          subst hx
          exact ⟨hl, le_refl _, he ▸ List.prefix_refl _⟩
      · rw [List.nodup_append]
        refine ⟨ihnodup, by simp, ?_⟩
        intro x hx
        obtain ⟨_, hxle, _⟩ := ihmem x hx
        simp
        intro hc
        subst hc
        omega
      · rw [List.chain'_append]
        refine ⟨ihchain, by simp, ?_⟩
        intro x hx y hy
        rw [ihlast] at hx
        simp at hx hy
        subst hx
        subst hy
        rcases parent_spec hp with ⟨m, hm, hmp, hlm⟩
        exact ⟨m, hm, hmp, hlm⟩



theorem find_node_none {x : String} : t.find_node x = none ↔ x ∉ t.labels := by
  unfold tree.find_node tree.labels
  rw [List.find?_eq_none]
  simp

theorem list_update_first_of_split {β : Type} {p : β → Bool} {f : β → β} {a : β} :
    ∀ {pre suf : List β}, (∀ b ∈ pre, p b = false) → p a = true →
    list_update_first p f (pre ++ a :: suf) = pre ++ f a :: suf := by
  intro pre
  induction pre with
  | nil => intro suf _ hpa; simp [list_update_first, hpa]
  | cons x xs ih =>
    intro suf hpre hpa
    have hx : p x = false := hpre x (List.mem_cons_self _ _)
    show list_update_first p f (x :: (xs ++ a :: suf)) = x :: (xs ++ f a :: suf)
    unfold list_update_first
    rw [hx]
    simp only [Bool.false_eq_true, if_false]
    rw [ih (fun b hb => hpre b (List.mem_cons_of_mem _ hb)) hpa]

theorem built_tinv {t : tree α} (hb : built t) : tinv t := by
  induction hb with
  | root l d =>
    refine ⟨by simp [tree.init], by simp [tree.init, tree.labels], ?_, ?_, ?_⟩
    · intro n hn c hc
      simp [tree.init] at hn
      subst hn
      simp at hc
    · intro n hn c hc
      simp [tree.init] at hn
      subst hn
      simp at hc
    · simp [tree.init, tree.labels]
  | @append t' p l d hb ih =>
    unfold tree.append_node
    split
    · exact ih
    · rename_i hlns
      split
      · exact ih
      · rename_i w hw
        have hl : l ∉ t'.labels := by
          rw [← find_node_none]
          cases hfl : t'.find_node l with
          | none => rfl
          | some v => rw [hfl] at hlns; simp at hlns
        rcases List.find?_eq_some.mp hw with ⟨hwp', ⟨pre, suf, hsplit, hpre'⟩⟩
        have hwp : w.label = p := by simpa using hwp'
        have hpre : ∀ b ∈ pre, (fun n => n.label == p) b = false := by
          intro b hb'
          have hc := hpre' b hb'
          simp at hc
          simp [hc]
        have hupd : list_update_first (fun n => n.label == p) (fun n => n.connect l)
            t'.nodes = pre ++ w.connect l :: suf := by
          rw [hsplit]
          exact list_update_first_of_split hpre (by simp [hwp])
        have hwmem : w ∈ t'.nodes := by rw [hsplit]; simp
        have hconn : w.connect l = ⟨w.label, w.data, w.edges ++ [l]⟩ := by
          unfold node.connect node.is_connected
          have hni : l ∉ w.edges := fun hc => hl (ih.closed w hwmem l hc)
          simp [hni]
        have hlabels' :
            (tree.mk ((list_update_first (fun n => n.label == p) (fun n => n.connect l)
              t'.nodes) ++ [(⟨l, d, []⟩ : node String α)]) : tree α).labels =
            t'.labels ++ [l] := by
          unfold tree.labels
          simp only [hupd, hconn]
          rw [hsplit]
          simp
        constructor
        · simp
        · rw [hlabels']
          rw [List.nodup_append]
          exact ⟨ih.nodup, by simp, fun x hx => by simp; intro hc; subst hc; exact absurd hx hl⟩
        · intro n hn c hc
          rw [hlabels']
          simp only [hupd, hconn] at hn
          simp only [List.mem_append, List.mem_cons] at hn
          rcases hn with ⟨h | h | h⟩ | h
          · exact List.mem_append_left _ (ih.closed n (by rw [hsplit]; simp [h]) c hc)
          · subst h
            simp only [] at hc
            rcases List.mem_append.mp hc with hc | hc
            · exact List.mem_append_left _ (ih.closed w hwmem c hc)
            · simp at hc; subst hc; simp
          · exact List.mem_append_left _ (ih.closed n (by rw [hsplit]; simp [h]) c hc)
          · simp at h
            subst h
            simp at hc
        · intro n hn c hc
          rw [hlabels']
          simp only [hupd, hconn] at hn
          simp only [List.mem_append, List.mem_cons] at hn
          have fwd_old : ∀ m ∈ t'.nodes, ∀ e ∈ m.edges,
              lidx m.label (t'.labels ++ [l]) < lidx e (t'.labels ++ [l]) := by
            intro m hm e he
            have h1 := ih.fwd m hm e he
            have hml : m.label ∈ t'.labels := List.mem_map_of_mem (·.label) hm
            have hel : e ∈ t'.labels := ih.closed m hm e he
            rw [lidx_append_left _ hml, lidx_append_left _ hel]
            exact h1
          rcases hn with ⟨h | h | h⟩ | h
          · exact fwd_old n (by rw [hsplit]; simp [h]) c hc
          · subst h
            show lidx w.label _ < _
            simp only [] at hc
            rcases List.mem_append.mp hc with hc | hc
            · exact fwd_old w hwmem c hc
            · simp at hc
              subst hc
              have hwl : w.label ∈ t'.labels := List.mem_map_of_mem (·.label) hwmem
              rw [lidx_append_left _ hwl, lidx_append_fresh hl]
              exact lidx_lt_length hwl
          · exact fwd_old n (by rw [hsplit]; simp [h]) c hc
          · simp at h
            subst h
            simp at hc
        · rw [hlabels']
          simp only [hupd, hconn]
          have hflat :
              (((pre ++ (⟨w.label, w.data, w.edges ++ [l]⟩ : node String α) :: suf) ++
                [(⟨l, d, []⟩ : node String α)]).map (·.edges)).flatten =
              ((pre.map (·.edges)).flatten ++ (w.edges ++ [l]) ++
                (suf.map (·.edges)).flatten) := by
            simp
          rw [hflat]
          have hold : ((t'.nodes.map (·.edges)).flatten) =
              (pre.map (·.edges)).flatten ++ w.edges ++ (suf.map (·.edges)).flatten := by
            rw [hsplit]
            simp
          have hperm1 : ((pre.map (·.edges)).flatten ++ (w.edges ++ [l]) ++
                (suf.map (·.edges)).flatten).Perm
              (((t'.nodes.map (·.edges)).flatten) ++ [l]) := by
            rw [hold]
            have hcomm : ([l] ++ (suf.map (·.edges)).flatten).Perm
                ((suf.map (·.edges)).flatten ++ [l]) := List.perm_append_comm
            have hstep := List.Perm.append_left ((pre.map (·.edges)).flatten ++ w.edges) hcomm
            simpa using hstep
          refine hperm1.trans ?_
          have hne : t'.labels ≠ [] := by
            intro hc
            apply ih.ne
            unfold tree.labels at hc
            simpa using hc
          have hdrop : (t'.labels ++ [l]).drop 1 = t'.labels.drop 1 ++ [l] := by
            rw [List.drop_append_of_le_length]
            cases hq : t'.labels
            · exact absurd hq hne
            · simp
          rw [hdrop]
          exact ih.perm.append_right [l]


theorem chain_getLast (ht : tinv t) {l : String} (hl : l ∈ t.labels) :
    (anc_chain t l).getLast? = some l :=
  (chain_facts ht (lidx l t.labels + 1) l hl (Nat.lt_succ_self _)).1

theorem chain_head (ht : tinv t) {l : String} (hl : l ∈ t.labels) :
    (anc_chain t l).head? = some t.root_label :=
  (chain_facts ht (lidx l t.labels + 1) l hl (Nat.lt_succ_self _)).2.1

theorem chain_mem_spec (ht : tinv t) {l : String} (hl : l ∈ t.labels) :
    ∀ x ∈ anc_chain t l, x ∈ t.labels ∧ lidx x t.labels ≤ lidx l t.labels ∧
      anc_chain t x <+: anc_chain t l :=
  (chain_facts ht (lidx l t.labels + 1) l hl (Nat.lt_succ_self _)).2.2.1

theorem chain_nodup (ht : tinv t) {l : String} (hl : l ∈ t.labels) :
    (anc_chain t l).Nodup :=
  (chain_facts ht (lidx l t.labels + 1) l hl (Nat.lt_succ_self _)).2.2.2.1

theorem chain_chain' (ht : tinv t) {l : String} (hl : l ∈ t.labels) :
    List.Chain' (tedge t) (anc_chain t l) :=
  (chain_facts ht (lidx l t.labels + 1) l hl (Nat.lt_succ_self _)).2.2.2.2

theorem chain_ne (ht : tinv t) {l : String} (hl : l ∈ t.labels) : anc_chain t l ≠ [] := by
  intro hc
  have := chain_getLast ht hl
  rw [hc] at this
  simp at this

theorem mem_own_chain (ht : tinv t) {l : String} (hl : l ∈ t.labels) : l ∈ anc_chain t l :=
  List.mem_of_mem_getLast? (by rw [chain_getLast ht hl]; rfl)

theorem chain_sub (ht : tinv t) {l : String} (hl : l ∈ t.labels) :
    ∀ x ∈ anc_chain t l, x ∈ t.labels :=
  fun x hx => (chain_mem_spec ht hl x hx).1

theorem chain_len_le (ht : tinv t) {l : String} (hl : l ∈ t.labels) :
    (anc_chain t l).length ≤ t.labels.length :=
  ((chain_nodup ht hl).subperm (chain_sub ht hl)).length_le

theorem chain_root_eq (ht : tinv t) : anc_chain t t.root_label = [t.root_label] := by
  rw [anc_chain_unfold ht (root_mem ht), parent_of?_root ht]

theorem chain_decomp (ht : tinv t) {dst cur : String} (hdst : dst ∈ t.labels)
    (hcur : cur ∈ anc_chain t dst) :
    anc_chain t dst =
      anc_chain t cur ++ (anc_chain t dst).drop (anc_chain t cur).length := by
  obtain ⟨suffix, hsx⟩ := (chain_mem_spec ht hdst cur hcur).2.2
  rw [← hsx, List.drop_left]

theorem kid_mem_chain (ht : tinv t) {dst cur c : String} (hdst : dst ∈ t.labels)
    (hedge : tedge t cur c) (hc : c ∈ anc_chain t dst) :
    cur ∈ anc_chain t dst ∧ cur ≠ dst ∧ parent_of? t c = some cur := by
  rcases hedge with ⟨m, hm, hmc, hcm⟩
  have hpar : parent_of? t c = some cur := hmc ▸ parent_unique ht hm hcm
  have hcl : c ∈ t.labels := chain_sub ht hdst c hc
  have hcc : anc_chain t c = anc_chain t cur ++ [c] := by
    rw [anc_chain_unfold ht hcl, hpar]
  have hcurc : cur ∈ anc_chain t c := by
    rw [hcc]
    exact List.mem_append_left _ (mem_own_chain ht (parent_mem hpar))
  have hcurdst : cur ∈ anc_chain t dst :=
    (chain_mem_spec ht hdst c hc).2.2.subset hcurc
  refine ⟨hcurdst, ?_, hpar⟩
  intro hne
  subst hne
  have h1 : lidx c t.labels ≤ lidx cur t.labels := (chain_mem_spec ht hdst c hc).2.1
  have h2 : lidx cur t.labels < lidx c t.labels := parent_lidx ht hpar
  omega

theorem chain_next (ht : tinv t) {dst cur : String} (hdst : dst ∈ t.labels)
    (hcur : cur ∈ anc_chain t dst) (hne : cur ≠ dst) :
    ∃ nx, (anc_chain t dst).drop (anc_chain t cur).length =
        nx :: (anc_chain t dst).drop (anc_chain t nx).length ∧
      parent_of? t nx = some cur ∧ nx ∈ anc_chain t dst ∧ tedge t cur nx ∧
      anc_chain t nx = anc_chain t cur ++ [nx] := by
  have hdec := chain_decomp ht hdst hcur
  cases hrest : (anc_chain t dst).drop (anc_chain t cur).length with
  | nil =>
    exfalso
    rw [hrest] at hdec
    simp at hdec
    have h1 := chain_getLast ht hdst
    have h2 := chain_getLast ht (chain_sub ht hdst cur hcur)
    rw [hdec] at h1
    rw [h2] at h1
    simp at h1
    exact hne h1
  | cons nx rest' =>
    have hsplit : anc_chain t dst = anc_chain t cur ++ nx :: rest' := by
      rw [hdec, hrest]
    have hch := chain_chain' ht hdst
    rw [hsplit] at hch
    rw [List.chain'_append] at hch
    have hedge : tedge t cur nx := by
      refine hch.2.2 cur ?_ nx (by rfl)
      rw [chain_getLast ht (chain_sub ht hdst cur hcur)]
      rfl
    rcases hedge with ⟨m, hm, hmc, hcm⟩
    have hpar : parent_of? t nx = some cur := hmc ▸ parent_unique ht hm hcm
    have hnxdst : nx ∈ anc_chain t dst := by
      rw [hsplit]
      exact List.mem_append_right _ (List.mem_cons_self _ _)
    have hnxl : nx ∈ t.labels := chain_sub ht hdst nx hnxdst
    have hnxc : anc_chain t nx = anc_chain t cur ++ [nx] := by
      rw [anc_chain_unfold ht hnxl, hpar]
    refine ⟨nx, ?_, hpar, hnxdst, ⟨m, hm, hmc, hcm⟩, hnxc⟩
    have hdx : (anc_chain t dst).drop (anc_chain t nx).length = rest' := by
      have hx : anc_chain t dst = anc_chain t nx ++ rest' := by
        rw [hnxc, hsplit]
        simp
      rw [hx, List.drop_left]
    rw [hdx]


theorem kid_unique (ht : tinv t) {dst cur c nx : String} (hdst : dst ∈ t.labels)
    (hc : c ∈ anc_chain t dst) (hpc : parent_of? t c = some cur)
    (hnx : nx ∈ anc_chain t dst) (hpn : parent_of? t nx = some cur) : c = nx := by
  have hcl := chain_sub ht hdst c hc
  have hnxl := chain_sub ht hdst nx hnx
  have hcc : anc_chain t c = anc_chain t cur ++ [c] := by
    rw [anc_chain_unfold ht hcl, hpc]
  have hnn : anc_chain t nx = anc_chain t cur ++ [nx] := by
    rw [anc_chain_unfold ht hnxl, hpn]
  have p1 := (chain_mem_spec ht hdst c hc).2.2
  have p2 := (chain_mem_spec ht hdst nx hnx).2.2
  have hlen : (anc_chain t c).length = (anc_chain t nx).length := by
    rw [hcc, hnn]; simp
  rw [List.prefix_iff_eq_take] at p1 p2
  have heq : anc_chain t c = anc_chain t nx := by
    rw [p1, p2, hlen]
  rw [hcc, hnn] at heq
  simpa using heq

theorem dfs_kids_none (rec : String → List String → dfs_res) :
    ∀ (ks : List String) (stack : List String),
    (∀ c ∈ ks, rec c (stack ++ [c]) = .not_found) →
    dfs_kids rec ks stack = .not_found := by
  intro ks
  induction ks with
  | nil => intro stack _; rfl
  | cons c rest ih =>
    intro stack h
    unfold dfs_kids
    rw [h c (List.mem_cons_self _ _)]
    exact ih stack (fun d hd => h d (List.mem_cons_of_mem _ hd))

theorem dfs_kids_found (rec : String → List String → dfs_res) :
    ∀ (ks : List String) (stack : List String) (g : String) (out : List String),
    g ∈ ks →
    (∀ c ∈ ks, c ≠ g → rec c (stack ++ [c]) = .not_found) →
    rec g (stack ++ [g]) = .found out →
    dfs_kids rec ks stack = .found out := by
  intro ks
  induction ks with
  | nil => intro stack g out h; simp at h
  | cons c rest ih =>
    intro stack g out hg hrest hfound
    unfold dfs_kids
    by_cases hcg : c = g
    · subst hcg
      rw [hfound]
    · rw [hrest c (List.mem_cons_self _ _) hcg]
      have hg' : g ∈ rest := by
        rcases List.mem_cons.mp hg with h | h
        · exact absurd h.symm hcg
        · exact h
      exact ih stack g out hg' (fun d hd => hrest d (List.mem_cons_of_mem _ hd)) hfound

theorem dfs_go_correct (ht : tinv t) {dst : String} (hdst : dst ∈ t.labels) :
    ∀ (fuel : Nat) (cur : String), cur ∈ t.labels →
      t.labels.length < fuel + (anc_chain t cur).length →
      ∀ stack : List String,
      (cur ∈ anc_chain t dst →
        t.dfs_go fuel cur dst stack =
          .found (stack ++ (anc_chain t dst).drop (anc_chain t cur).length)) ∧
      (cur ∉ anc_chain t dst → t.dfs_go fuel cur dst stack = .not_found) := by
  intro fuel
  induction fuel with
  | zero =>
    intro cur hcur hlen stack
    have := chain_len_le ht hcur
    exact absurd hlen (by omega)
  | succ n ih =>
    intro cur hcur hlen stack
    by_cases heq : cur = dst
    · subst heq
      constructor
      · intro _
        unfold tree.dfs_go
        rw [if_pos rfl]
        rw [List.drop_length]
        simp
      · intro hno
        exact absurd (mem_own_chain ht hcur) hno
    · have hstep : ∀ st : List String, t.dfs_go (n + 1) cur dst st =
          dfs_kids (fun c st' => t.dfs_go n c dst st') (t.children_of cur) st := by
        intro st
        conv_lhs => rw [tree.dfs_go.eq_def]
        rw [if_neg heq]
      have hkid_par : ∀ c ∈ t.children_of cur, parent_of? t c = some cur ∧ c ∈ t.labels ∧
          anc_chain t c = anc_chain t cur ++ [c] := by
        intro c hc
        rcases (mem_children_iff ht).mp hc with ⟨m, hm, hmc, hcm⟩
        have hp : parent_of? t c = some cur := hmc ▸ parent_unique ht hm hcm
        have hcl : c ∈ t.labels := ht.closed m hm c hcm
        exact ⟨hp, hcl, by rw [anc_chain_unfold ht hcl, hp]⟩
      have hfuel : ∀ c ∈ t.children_of cur, t.labels.length < n + (anc_chain t c).length := by
        intro c hc
        rw [(hkid_par c hc).2.2]
        simp
        omega
      constructor
      · intro hcur_chain
        obtain ⟨nx, hdrop, hpnx, hnxdst, hedge_nx, hnxc⟩ := chain_next ht hdst hcur_chain heq
        have hnx_kid : nx ∈ t.children_of cur := (mem_children_iff ht).mpr hedge_nx
        rw [hstep, hdrop]
        have hout : (stack ++ [nx]) ++ (anc_chain t dst).drop (anc_chain t nx).length =
            stack ++ (nx :: (anc_chain t dst).drop (anc_chain t nx).length) := by
          simp
        refine dfs_kids_found _ _ _ nx _ hnx_kid ?_ ?_
        · intro c hc hcne
          apply (ih c (hkid_par c hc).2.1 (hfuel c hc) (stack ++ [c])).2
          intro hcchain
          exact hcne (kid_unique ht hdst hcchain (hkid_par c hc).1 hnxdst hpnx)
        · rw [(ih nx (hkid_par nx hnx_kid).2.1 (hfuel nx hnx_kid) (stack ++ [nx])).1 hnxdst]
          rw [hout]
      · intro hno
        rw [hstep]
        apply dfs_kids_none
        intro c hc
        apply (ih c (hkid_par c hc).2.1 (hfuel c hc) (stack ++ [c])).2
        intro hcchain
        exact hno (kid_mem_chain ht hdst ((mem_children_iff ht).mp hc) hcchain).1

theorem dfs_path_eq (ht : tinv t) {dst : String} (hdst : dst ∈ t.labels) :
    t.dfs_path dst = anc_chain t dst := by
  unfold tree.dfs_path
  have hroot : t.root_label ∈ t.labels := root_mem ht
  have hrchain : t.root_label ∈ anc_chain t dst := by
    have := chain_head ht hdst
    exact List.mem_of_mem_head? (by rw [this]; rfl)
  have hlen : t.labels.length < t.size + (anc_chain t t.root_label).length := by
    rw [size_eq_labels_length, chain_root_eq ht]
    simp
  rw [(dfs_go_correct ht hdst t.size t.root_label hroot hlen [t.root_label]).1 hrchain]
  rw [chain_root_eq ht]
  cases hc : anc_chain t dst with
  | nil => exact absurd hc (chain_ne ht hdst)
  | cons h rest =>
    have hh := chain_head ht hdst
    rw [hc] at hh
    simp at hh
    subst hh
    simp


theorem pairs_fsts (t : tree α) (done : List String) :
    (pairs_list t done).map Prod.fst = enq_list t done := by
  unfold pairs_list enq_list
  simp only [List.map_cons]
  congr 1
  induction done with
  | nil => rfl
  | cons d rest ih =>
    simp only [List.map_cons, List.flatten_cons, List.map_append, ih]
    congr 1
    rw [List.map_map]
    rw [show (Prod.fst ∘ fun c => (c, some d)) = id from rfl, List.map_id]

theorem find?_of_fst_nodup :
    ∀ (P : List (String × Option String)) (x : String) (v : Option String),
    (P.map Prod.fst).Nodup → (x, v) ∈ P →
    P.find? (fun pr => pr.1 = x) = some (x, v) := by
  intro P
  induction P with
  | nil => intro x v _ h; simp at h
  | cons q rest ih =>
    intro x v hnd hm
    rcases List.mem_cons.mp hm with h | h
    · subst h
      rw [List.find?_cons_of_pos]
      simp
    · rw [List.map_cons] at hnd
      have hq : q.1 ≠ x := by
        intro hc
        have hxm : x ∈ rest.map Prod.fst := by
          have := List.mem_map_of_mem Prod.fst h
          simpa using this
        exact (List.nodup_cons.mp hnd).1 (hc ▸ hxm)
      rw [List.find?_cons_of_neg]
      · exact ih x v (List.nodup_cons.mp hnd).2 h
      · simp [hq]

theorem mem_pairs_list {t : tree α} {done : List String} {c d : String}
    (hd : d ∈ done) (hc : c ∈ t.children_of d) :
    (c, some d) ∈ pairs_list t done := by
  unfold pairs_list
  refine List.mem_cons_of_mem _ ?_
  rw [List.mem_flatten]
  exact ⟨(t.children_of d).map (fun c => (c, some d)), List.mem_map_of_mem _ hd,
    List.mem_map_of_mem _ hc⟩

theorem mem_enq_cases {t : tree α} {done : List String} {x : String}
    (hx : x ∈ enq_list t done) :
    x = t.root_label ∨ ∃ d ∈ done, x ∈ t.children_of d := by
  unfold enq_list at hx
  rcases List.mem_cons.mp hx with h | h
  · exact Or.inl h
  · rw [List.mem_flatten] at h
    rcases h with ⟨chs, hchs, hxc⟩
    rcases List.mem_map.mp hchs with ⟨d, hd, hdc⟩
    exact Or.inr ⟨d, hd, hdc ▸ hxc⟩

theorem mem_enq_of_child {t : tree α} {done : List String} {c d : String}
    (hd : d ∈ done) (hc : c ∈ t.children_of d) : c ∈ enq_list t done := by
  unfold enq_list
  refine List.mem_cons_of_mem _ ?_
  rw [List.mem_flatten]
  exact ⟨t.children_of d, List.mem_map_of_mem _ hd, hc⟩

theorem done_sub_enq {t : tree α} {dst : String} {done : List String}
    (hinv : bfs_inv t dst done) : ∀ x ∈ done, x ∈ enq_list t done := by
  intro x hx
  rw [hinv.pref] at hx
  exact List.take_subset _ _ hx

theorem pair_mem_of_enq (ht : tinv t) {done : List String}
    {x : String} (hx : x ∈ enq_list t done) :
    (x, parent_of? t x) ∈ pairs_list t done := by
  rcases mem_enq_cases hx with h | ⟨d, hd, hdc⟩
  · subst h
    rw [parent_of?_root ht]
    unfold pairs_list
    exact List.mem_cons_self _ _
  · have hpar : parent_of? t x = some d := by
      rcases (mem_children_iff ht).mp hdc with ⟨m, hm, hmd, hxm⟩
      exact hmd ▸ parent_unique ht hm hxm
    rw [hpar]
    exact mem_pairs_list hd hdc

theorem closure_anc (ht : tinv t) {dst : String} {done : List String}
    (hinv : bfs_inv t dst done) :
    ∀ (N : Nat) (y : String), lidx y t.labels < N → y ∈ done →
    ∀ x ∈ anc_chain t y, x ∈ done := by
  intro N
  induction N with
  | zero => intro y hy; omega
  | succ n ih =>
    intro y hyN hy x hx
    have hyl : y ∈ t.labels := hinv.sub y (done_sub_enq hinv y hy)
    rw [anc_chain_unfold ht hyl] at hx
    cases hp : parent_of? t y with
    | none =>
      rw [hp] at hx
      simp at hx
      subst hx
      exact hy
    | some p =>
      rw [hp] at hx
      rcases List.mem_append.mp hx with hx | hx
      · have hpd : p ∈ done := hinv.closed y hy p hp
        have hplt := parent_lidx ht hp
        exact ih p (by omega) hpd x hx
      · simp at hx
        subst hx
        exact hy

theorem found_pairs_spec (ht : tinv t) {dst : String} (hdst : dst ∈ t.labels)
    {done : List String} (hinv : bfs_inv t dst done) (hq : dst ∈ enq_list t done) :
    ∀ x ∈ anc_chain t dst,
    (pairs_list t done).find? (fun pr => pr.1 = x) = some (x, parent_of? t x) := by
  intro x hx
  have hxl : x ∈ t.labels := chain_sub ht hdst x hx
  have hfst : ((pairs_list t done).map Prod.fst).Nodup := by
    rw [pairs_fsts]
    exact hinv.nodup
  have hxenq : x ∈ enq_list t done := by
    by_cases hxd : x = dst
    · subst hxd; exact hq
    · have hxdone : x ∈ done := by
        rcases mem_enq_cases hq with h | ⟨d, hd, hdc⟩
        · exfalso
          rw [h, chain_root_eq ht] at hx
          simp at hx
          exact hxd (by rw [hx, ← h])
        · have hpar : parent_of? t dst = some d := by
            rcases (mem_children_iff ht).mp hdc with ⟨m, hm, hmd, hxm⟩
            exact hmd ▸ parent_unique ht hm hxm
          have hchain : anc_chain t dst = anc_chain t d ++ [dst] := by
            rw [anc_chain_unfold ht hdst, hpar]
          rw [hchain] at hx
          rcases List.mem_append.mp hx with hx | hx
          · exact closure_anc ht hinv (lidx d t.labels + 1) d (Nat.lt_succ_self _) hd x hx
          · simp at hx; exact absurd hx hxd
      exact done_sub_enq hinv x hxdone
  exact find?_of_fst_nodup _ x (parent_of? t x) hfst (pair_mem_of_enq ht hxenq)


theorem bfs_go_correct (ht : tinv t) {dst : String} (hdst : dst ∈ t.labels) :
    ∀ (fuel : Nat) (done : List String), bfs_inv t dst done →
      t.labels.length ≤ fuel + done.length →
      done.length < (enq_list t done).length →
      ∃ done', t.bfs_go fuel dst ((enq_list t done).drop done.length) (pairs_list t done) =
          .found (pairs_list t done') ∧ bfs_inv t dst done' ∧ dst ∈ enq_list t done' := by
  intro fuel
  induction fuel with
  | zero =>
    intro done hinv h8 h9
    exfalso
    have hdnd : done.Nodup := by
      rw [hinv.pref]
      exact hinv.nodup.sublist (List.take_sublist _ _)
    have hsub : ∀ x ∈ done, x ∈ t.labels := fun x hx => hinv.sub x (done_sub_enq hinv x hx)
    have hfull : (dst :: done).Nodup := List.nodup_cons.mpr ⟨hinv.nodst, hdnd⟩
    have hsub2 : ∀ x ∈ dst :: done, x ∈ t.labels := by
      intro x hx
      rcases List.mem_cons.mp hx with h | h
      · exact h ▸ hdst
      · exact hsub x h
    have hle := (hfull.subperm hsub2).length_le
    simp at hle
    omega
  | succ n ih =>
    intro done hinv h8 h9
    have hqueue : enq_list t done = done ++ (enq_list t done).drop done.length := by
      have h1 := List.take_append_drop done.length (enq_list t done)
      rw [← hinv.pref] at h1
      exact h1.symm
    cases hq : (enq_list t done).drop done.length with
    | nil =>
      exfalso
      have h1 : ((enq_list t done).drop done.length).length = 0 := by rw [hq]; rfl
      rw [List.length_drop] at h1
      omega
    | cons cur qrest =>
      rw [hq] at hqueue
      have hcur_enq : cur ∈ enq_list t done := by rw [hqueue]; simp
      have hcur_lab : cur ∈ t.labels := hinv.sub cur hcur_enq
      by_cases hcd : cur = dst
      · subst hcd
        refine ⟨done, ?_, hinv, hcur_enq⟩
        unfold tree.bfs_go
        rw [if_pos rfl]
      · have hcnd : cur ∉ done := by
          have hnd := hinv.nodup
          rw [hqueue] at hnd
          rcases List.nodup_append.mp hnd with ⟨_, _, hdisj⟩
          intro hc
          exact hdisj hc (List.mem_cons_self _ _)
        have hpar_kid : ∀ c ∈ t.children_of cur, parent_of? t c = some cur := by
          intro c hc
          rcases (mem_children_iff ht).mp hc with ⟨m, hm, hmc, hcm⟩
          exact hmc ▸ parent_unique ht hm hcm
        have henq' : enq_list t (done ++ [cur]) = enq_list t done ++ t.children_of cur := by
          unfold enq_list
          simp
        have hpairs' : pairs_list t (done ++ [cur]) =
            pairs_list t done ++ (t.children_of cur).map (fun c => (c, some cur)) := by
          unfold pairs_list
          simp
        have hkid_fresh : ∀ c ∈ t.children_of cur, c ∉ enq_list t done := by
          intro c hc hcenq
          rcases mem_enq_cases hcenq with h | ⟨d, hd, hdc⟩
          · have hp := hpar_kid c hc
            rw [h, parent_of?_root ht] at hp
            exact absurd hp (by simp)
          · have hp1 := hpar_kid c hc
            have hp2 : parent_of? t c = some d := by
              rcases (mem_children_iff ht).mp hdc with ⟨m, hm, hmd, hcm⟩
              exact hmd ▸ parent_unique ht hm hcm
            rw [hp1] at hp2
            have hcurd : cur = d := Option.some.inj hp2
            exact hcnd (hcurd ▸ hd)
        have hcur_parent : ∀ p : String, parent_of? t cur = some p → p ∈ done := by
          intro p hp
          rcases mem_enq_cases hcur_enq with h | ⟨d, hd, hdc⟩
          · rw [h, parent_of?_root ht] at hp
            exact absurd hp (by simp)
          · have hp2 : parent_of? t cur = some d := by
              rcases (mem_children_iff ht).mp hdc with ⟨m, hm, hmd, hcm⟩
              exact hmd ▸ parent_unique ht hm hcm
            rw [hp] at hp2
            exact (Option.some.inj hp2) ▸ hd
        have hinv' : bfs_inv t dst (done ++ [cur]) := by
          constructor
          · intro x hx
            rw [henq'] at hx
            rcases List.mem_append.mp hx with h | h
            · exact hinv.sub x h
            · exact children_sub ht h
          · rw [henq', List.nodup_append]
            exact ⟨hinv.nodup, children_nodup ht cur,
              fun a ha hak => hkid_fresh a hak ha⟩
          · rw [henq', hqueue]
            have hre : (done ++ cur :: qrest) ++ t.children_of cur =
                (done ++ [cur]) ++ (qrest ++ t.children_of cur) := by simp
            rw [hre]
            rw [List.take_left']
            simp
          · intro x hx p hp
            rcases List.mem_append.mp hx with h | h
            · exact List.mem_append_left _ (hinv.closed x h p hp)
            · simp at h
              subst h
              exact List.mem_append_left _ (hcur_parent p hp)
          · intro hc
            rcases List.mem_append.mp hc with h | h
            · exact hinv.nodst h
            · simp at h
              exact hcd h.symm
        by_cases hqe : (qrest ++ t.children_of cur).isEmpty = true
        · exfalso
          have hqnil : qrest ++ t.children_of cur = [] := by
            simpa [List.isEmpty_iff] using hqe
          rcases List.append_eq_nil.mp hqnil with ⟨hq1, hq2⟩
          have henq'_eq : enq_list t (done ++ [cur]) = done ++ [cur] := by
            rw [henq', hqueue, hq1, hq2]
            simp
          have hall : ∀ (N : Nat) (x : String), lidx x t.labels < N → x ∈ t.labels →
              x ∈ done ++ [cur] := by
            intro N
            induction N with
            | zero => intro x hx _; omega
            | succ m ihm =>
              intro x hxN hxl
              cases hpx : parent_of? t x with
              | none =>
                have hxr : x = t.root_label := root_of_no_parent ht hxl hpx
                have hr : t.root_label ∈ enq_list t (done ++ [cur]) := by
                  unfold enq_list
                  simp
                rw [henq'_eq] at hr
                exact hxr ▸ hr
              | some p =>
                have hpl := parent_lidx ht hpx
                have hpd : p ∈ done ++ [cur] := ihm p (by omega) (parent_mem hpx)
                have hxc : x ∈ t.children_of p := by
                  rcases parent_spec hpx with ⟨m2, hm2, hm2p, hxm2⟩
                  rw [← hm2p, children_of_eq ht hm2]
                  exact hxm2
                have hxe : x ∈ enq_list t (done ++ [cur]) := mem_enq_of_child hpd hxc
                rw [henq'_eq] at hxe
                exact hxe
          exact hinv'.nodst (hall (lidx dst t.labels + 1) dst (Nat.lt_succ_self _) hdst)
        · have hq' : qrest ++ t.children_of cur =
              (enq_list t (done ++ [cur])).drop (done ++ [cur]).length := by
            rw [henq', hqueue]
            have hre : (done ++ cur :: qrest) ++ t.children_of cur =
                (done ++ [cur]) ++ (qrest ++ t.children_of cur) := by simp
            rw [hre, List.drop_left]
          have h8' : t.labels.length ≤ n + (done ++ [cur]).length := by
            simp
            omega
          have h9' : (done ++ [cur]).length < (enq_list t (done ++ [cur])).length := by
            by_contra hcon
            push_neg at hcon
            have : (enq_list t (done ++ [cur])).drop (done ++ [cur]).length = [] :=
              List.drop_eq_nil_of_le hcon
            rw [← hq'] at this
            rw [List.isEmpty_iff] at hqe
            exact hqe this
          obtain ⟨done', hrun, hinv'', hdst''⟩ := ih (done ++ [cur]) hinv' h8' h9'
          refine ⟨done', ?_, hinv'', hdst''⟩
          have hstep : t.bfs_go (n + 1) dst (cur :: qrest) (pairs_list t done) =
              (if cur = dst then bfs_res.found (pairs_list t done)
               else if (qrest ++ t.children_of cur).isEmpty = true then .not_found
               else t.bfs_go n dst (qrest ++ t.children_of cur)
                 (pairs_list t done ++ (t.children_of cur).map (fun c => (c, some cur)))) :=
            rfl
          rw [hstep, if_neg hcd, if_neg hqe]
          rw [hq', ← hpairs']
          exact hrun


theorem backtrack_correct (ht : tinv t) {dst : String} (hdst : dst ∈ t.labels)
    {P : List (String × Option String)}
    (hP : ∀ x ∈ anc_chain t dst, P.find? (fun pr => pr.1 = x) = some (x, parent_of? t x)) :
    ∀ (N fuel : Nat) (x : String), x ∈ anc_chain t dst → lidx x t.labels < N →
      lidx x t.labels ≤ fuel → ∀ acc : List String,
      tree.backtrack fuel P x acc = some (acc ++ (anc_chain t x).reverse) := by
  intro N
  induction N with
  | zero => intro fuel x _ h _ _; omega
  | succ n ih =>
    intro fuel x hx hxN hxf acc
    have hxl : x ∈ t.labels := chain_sub ht hdst x hx
    unfold tree.backtrack
    cases hp : parent_of? t x with
    | none =>
      have hfind : P.find? (fun pr => pr.1 = x) = some (x, none) := by
        rw [hP x hx, hp]
      rw [hfind]
      have hcx : anc_chain t x = [x] := by rw [anc_chain_unfold ht hxl, hp]
      rw [hcx]
      rfl
    | some p =>
      have hfind : P.find? (fun pr => pr.1 = x) = some (x, some p) := by
        rw [hP x hx, hp]
      rw [hfind]
      have hplt := parent_lidx ht hp
      cases fuel with
      | zero => omega
      | succ f =>
        have hxc : anc_chain t x = anc_chain t p ++ [x] := by
          rw [anc_chain_unfold ht hxl, hp]
        have hpchain : p ∈ anc_chain t dst := by
          apply (chain_mem_spec ht hdst x hx).2.2.subset
          rw [hxc]
          exact List.mem_append_left _ (mem_own_chain ht (parent_mem hp))
        show tree.backtrack f P p (acc ++ [x]) = some (acc ++ (anc_chain t x).reverse)
        rw [ih f p hpchain (by omega) (by omega) (acc ++ [x])]
        rw [hxc]
        simp

theorem bfs_path_eq (ht : tinv t) {dst : String} (hdst : dst ∈ t.labels) :
    t.bfs_path dst = anc_chain t dst := by
  unfold tree.bfs_path
  have hinv0 : bfs_inv t dst [] := by
    constructor
    · intro x hx
      unfold enq_list at hx
      simp at hx
      exact hx ▸ root_mem ht
    · unfold enq_list
      simp
    · rfl
    · intro x hx
      simp at hx
    · simp
  have h8 : t.labels.length ≤ t.size + ([] : List String).length := by
    rw [size_eq_labels_length]
    simp
  have h9 : ([] : List String).length < (enq_list t []).length := by
    unfold enq_list
    simp
  obtain ⟨done', hrun, hinv', hdst'⟩ := bfs_go_correct ht hdst t.size [] hinv0 h8 h9
  have hrun' : t.bfs_go t.size dst [t.root_label] [(t.root_label, none)] =
      .found (pairs_list t done') := hrun
  rw [hrun']
  have hfind := found_pairs_spec ht hdst hinv' hdst'
  have hbt := backtrack_correct ht hdst hfind (lidx dst t.labels + 1) t.size dst
    (mem_own_chain ht hdst) (Nat.lt_succ_self _)
    (by rw [size_eq_labels_length]; exact Nat.le_of_lt (lidx_lt_length hdst)) []
  show (match tree.backtrack t.size (pairs_list t done') dst [] with
    | some backs => backs.reverse
    | none => []) = anc_chain t dst
  rw [hbt]
  simp

theorem path_eq_chain (ht : tinv t) {dst : String} (hdst : dst ∈ t.labels)
    (m : search_method) : t.path dst m = anc_chain t dst := by
  unfold tree.path
  have hfs : ∃ w, t.find_node dst = some w := by
    cases hf : t.find_node dst with
    | none => exact absurd ((find_node_none).mp hf) (by simpa using hdst)
    | some w => exact ⟨w, rfl⟩
  rcases hfs with ⟨w, hw⟩
  rw [hw]
  cases m with
  | depth => exact dfs_path_eq ht hdst
  | breath => exact bfs_path_eq ht hdst


theorem find_node_isSome {x : String} : (t.find_node x).isSome = true ↔ x ∈ t.labels := by
  unfold tree.find_node tree.labels
  rw [List.find?_isSome]
  simp

/-- C5: for every tree built through the constructor and `append_node`, and
every destination label, the depth-first and breadth-first `path` searches
return the same label sequence; in particular on the chain tree
`O → N → J → L → E → I` both return `["O","N","J","L","E","I"]` for
destination `"I"`.  (Both searches compute the ancestor chain of the
destination.) -/
theorem claim_C5 :
    (∀ (β : Type) (t : tree β), built t → ∀ dst : String,
      t.path dst .depth = t.path dst .breath) ∧
    example_chain_tree.path "I" .depth = ["O", "N", "J", "L", "E", "I"] ∧
    example_chain_tree.path "I" .breath = ["O", "N", "J", "L", "E", "I"] := by
  refine ⟨?_, by decide, by decide⟩
  intro β t hb dst
  have ht := built_tinv hb
  by_cases hdst : dst ∈ t.labels
  · rw [path_eq_chain ht hdst search_method.depth, path_eq_chain ht hdst search_method.breath]
  · have hnone : t.find_node dst = none := find_node_none.mpr hdst
    unfold tree.path
    rw [hnone]

/-- Witness for C5 at a concrete input: the chain tree of the C++ test
suite. -/
theorem claim_C5_witness :
    built example_chain_tree ∧
    example_chain_tree.path "I" .depth = example_chain_tree.path "I" .breath :=
  ⟨built.append "E" "I" 0 (built.append "L" "E" 0 (built.append "J" "L" 0
      (built.append "N" "J" 0 (built.append "O" "N" 0 (built.root "O" 0))))),
    claim_C5.1 Nat example_chain_tree
      (built.append "E" "I" 0 (built.append "L" "E" 0 (built.append "J" "L" 0
        (built.append "N" "J" 0 (built.append "O" "N" 0 (built.root "O" 0)))))) "I"⟩

/-- C9: for every tree built through the public API, `path(dst, method)`
returns the ordered label sequence from the root to `dst` inclusive along
tree edges when `dst` is present (it starts at the root, ends at `dst` and
every consecutive pair is a tree edge), and the empty sequence when `dst`
is absent. -/
theorem claim_C9 {β : Type} (t : tree β) (hb : built t) (dst : String)
    (m : search_method) :
    (t.contains_node dst = true →
      (t.path dst m).head? = some t.root_label ∧
      (t.path dst m).getLast? = some dst ∧
      List.Chain' (tedge t) (t.path dst m) ∧ t.path dst m ≠ []) ∧
    (t.contains_node dst = false → t.path dst m = []) := by
  have ht := built_tinv hb
  constructor
  · intro hc
    have hdst : dst ∈ t.labels := by
      rw [← find_node_isSome]
      unfold tree.contains_node at hc
      exact hc
    rw [path_eq_chain ht hdst m]
    exact ⟨chain_head ht hdst, chain_getLast ht hdst, chain_chain' ht hdst, chain_ne ht hdst⟩
  · intro hc
    unfold tree.path
    have hnone : t.find_node dst = none := by
      cases hf : t.find_node dst with
      | none => rfl
      | some w => unfold tree.contains_node at hc; rw [hf] at hc; simp at hc
    rw [hnone]

/-- Witness for C9 at a concrete input: the path to `"I"` in the chain
tree. -/
theorem claim_C9_witness :
    example_chain_tree.contains_node "I" = true ∧
    ((example_chain_tree.path "I" .depth).head? = some example_chain_tree.root_label ∧
      (example_chain_tree.path "I" .depth).getLast? = some "I" ∧
      List.Chain' (tedge example_chain_tree) (example_chain_tree.path "I" .depth) ∧
      example_chain_tree.path "I" .depth ≠ []) :=
  ⟨by decide,
    (claim_C9 example_chain_tree
      (built.append "E" "I" 0 (built.append "L" "E" 0 (built.append "J" "L" 0
        (built.append "N" "J" 0 (built.append "O" "N" 0 (built.root "O" 0))))))
      "I" .depth).1 (by decide)⟩

/-- C10: tree ancestry as implemented is reflexive — for every label `x`
contained in the tree, `is_descendent_of(x, x)` and `is_ancestor_of(x, x)`
are both true (the search accepts the trivial empty path), and
`is_ancestor_of(a, b)` equals `is_descendent_of(b, a)` for all labels. -/
theorem claim_C10 {β : Type} (t : tree β) :
    (∀ x : String, t.contains_node x = true →
      t.is_descendent_of x x = true ∧ t.is_ancestor_of x x = true) ∧
    (∀ a b : String, t.is_ancestor_of a b = t.is_descendent_of b a) := by
  refine ⟨?_, fun a b => rfl⟩
  intro x hx
  unfold tree.contains_node at hx
  cases hf : t.find_node x with
  | none => rw [hf] at hx; simp at hx
  | some w =>
    have hd : t.is_descendent_of x x = true := by
      unfold tree.is_descendent_of
      rw [hf]
      show (match t.dfs_go t.size x x [x] with
        | .found _ => true
        | _ => false) = true
      unfold tree.dfs_go
      rw [if_pos rfl]
    exact ⟨hd, hd⟩

/-- Witness for C10 at a concrete input. -/
theorem claim_C10_witness :
    example_chain_tree.contains_node "N" = true ∧
    (example_chain_tree.is_descendent_of "N" "N" = true ∧
      example_chain_tree.is_ancestor_of "N" "N" = true) :=
  ⟨by decide, (claim_C10 example_chain_tree).1 "N" (by decide)⟩

end TreeStruct
end Network

